import Mathlib

/-!
Verification of the parselt markdown-rendering pipeline (gui.go / terminal.go /
main.go) against its natural-language specification.

The Go sources are shallowly embedded over `List Char` (Go strings are byte
strings; every input used in the theorems below is ASCII, where Go's byte
indexing and `len` coincide with character indexing and length).  Go's
regular-expression calls use only a handful of fixed patterns
(`<h1[^>]*>(.*?)</h1>`, `<[^>]*>`, `class="language-([^"]*)"`, `(\d+)\.`, ...);
each is embedded as a direct scanning function realising Go/RE2 leftmost-match
semantics for that exact pattern shape.  Functions that can panic in Go
(out-of-range slicing in `wrapCodeLine`) return `Option`, with `none` for the
panic.  Loops whose termination is not structural are written with an explicit
fuel parameter that provably dominates the iteration count, so that every
definition evaluates by kernel reduction.  Terminal styling (lipgloss
colors/borders) is display-only and is modelled as the identity on the
rendered text, keeping the glyph prefixes the source passes to `Render`.
-/

namespace Parselt

/-- Coerce a string literal to the `List Char` the model works over. -/
def cs (s : String) : List Char := s.data

/-- One fuelled step stream of Go `strings.ReplaceAll`: replace every
non-overlapping occurrence of `pat` (non-empty) in `s` by `rep`, scanning left
to right, continuing after each replacement without rescanning `rep`.  The
fuel is only consumed one unit per examined position, so `s.length` fuel is
always enough (`replaceAllF_congr`). -/
def replaceAllF (pat rep : List Char) : Nat → List Char → List Char
  | _, [] => []
  | 0, s => s
  | fuel + 1, c :: rest =>
    if pat.isPrefixOf (c :: rest) then
      rep ++ replaceAllF pat rep fuel ((c :: rest).drop pat.length)
    else
      c :: replaceAllF pat rep fuel rest

/-- Go `strings.ReplaceAll` (the program only calls it with non-empty `pat`;
for an empty pattern the model returns `s` unchanged). -/
def replaceAll (s pat rep : List Char) : List Char :=
  if pat = [] then s else replaceAllF pat rep s.length s

/-- Go `strings.Contains`: `pat` occurs as a contiguous substring of `s`. -/
def containsSub (s pat : List Char) : Bool :=
  match s with
  | [] => pat.isEmpty
  | _ :: rest => pat.isPrefixOf s || containsSub rest pat

/-- Characters Go's `unicode.IsSpace` recognises in the ASCII range
(the only whitespace the inputs in this development contain). -/
def isWS (c : Char) : Bool :=
  c = ' ' || c = '\t' || c = '\n' || c = '\r'

/-- Go `strings.TrimSpace`. -/
def trimSpace (s : List Char) : List Char :=
  ((s.dropWhile isWS).reverse.dropWhile isWS).reverse

/-- Go `strings.TrimLeft(s, " \t")` as used for list-item indentation. -/
def trimLeftSpaceTab (s : List Char) : List Char :=
  s.dropWhile (fun c => c = ' ' || c = '\t')

/-- Go `strings.TrimLeft(s, " ")` as used in `wrapCodeLine`. -/
def trimLeftSpace (s : List Char) : List Char :=
  s.dropWhile (fun c => c = ' ')

/-- Go `strings.Split(s, "\n")`. -/
def splitLines (s : List Char) : List (List Char) :=
  match s with
  | [] => [[]]
  | c :: rest =>
    if c = '\n' then [] :: splitLines rest
    else
      match splitLines rest with
      | [] => [[c]]
      | l :: ls => (c :: l) :: ls

/-- Go `strings.Join(ls, "\n")`. -/
def joinNL (ls : List (List Char)) : List Char :=
  match ls with
  | [] => []
  | [l] => l
  | l :: ls => l ++ '\n' :: joinNL ls

/-- `SharedMarkdownProcessor.UnescapeHTML` (main.go), also inlined at the top
of `htmlToMarkdown` (gui.go) and `htmlToTerminal` (terminal.go): the five
character references are replaced in source order `&lt;`, `&gt;`, `&amp;`,
`&quot;`, `&#39;`. -/
def UnescapeHTML (text : List Char) : List Char :=
  replaceAll (replaceAll (replaceAll (replaceAll (replaceAll
    text (cs "&lt;") (cs "<"))
         (cs "&gt;") (cs ">"))
         (cs "&amp;") (cs "&"))
         (cs "&quot;") (cs "\""))
         (cs "&#39;") (cs "'")

/-- Index of the first occurrence of `pat` as a substring (RE2 leftmost
match position), or `none`. -/
def idxOfSub (pat : List Char) : List Char → Option Nat
  | [] => if pat.isEmpty then some 0 else none
  | c :: rest =>
    if pat.isPrefixOf (c :: rest) then some 0
    else (idxOfSub pat rest).map (· + 1)

/-- Try to match the regular-expression shape `op[^>]*>(.*?)cl` at the start
of `s` (`op` is a literal such as `"<h1"` or `"<code"`, `cl` the matching
literal closing tag).  Returns the captured group and the total match length.
`[^>]*` is forced to stop at the first `'>'`, and the lazy group ends at the
first occurrence of `cl`, exactly as RE2 matches these patterns on the
newline-free line fragments the program feeds them. -/
def tryTag (op cl s : List Char) : Option (List Char × Nat) :=
  if op.isPrefixOf s then
    let rest := s.drop op.length
    let attrs := rest.takeWhile (fun c => c ≠ '>')
    match rest.drop attrs.length with
    | '>' :: body =>
      match idxOfSub cl body with
      | some j => some (body.take j, op.length + attrs.length + 1 + j + cl.length)
      | none => none
    | _ => none
  else none

/-- `re.FindStringSubmatch` for the pattern `op[^>]*>(.*?)cl`: the captured
group of the leftmost match, or `none` when the line has no match. -/
def findTagContent (op cl : List Char) : List Char → Option (List Char)
  | [] => none
  | c :: rest =>
    match tryTag op cl (c :: rest) with
    | some (content, _) => some content
    | none => findTagContent op cl rest

/-- `re.MatchString` for the pattern `op[^>]*>` (e.g. `h1TagRe` in
terminal.go): `op` occurs and is followed, after a run of non-`'>'`
characters, by a `'>'`. -/
def matchesOpenTag (op : List Char) : List Char → Bool
  | [] => false
  | c :: rest =>
    (op.isPrefixOf (c :: rest) && ((c :: rest).drop op.length).contains '>')
      || matchesOpenTag op rest

/-- `anyTagRe.ReplaceAllString(s, "")` for the pattern `<[^>]*>`
(`RemoveHTMLTags` in main.go and the inline copies in gui.go/terminal.go):
every `'<'` that is followed by a later `'>'` is removed together with
everything up to and including that first `'>'`.  Each removal consumes at
least one character, so `s.length` fuel always suffices. -/
def removeTagsF : Nat → List Char → List Char
  | _, [] => []
  | 0, s => s
  | fuel + 1, c :: rest =>
    if c = '<' && rest.contains '>' then
      removeTagsF fuel ((rest.dropWhile (fun d => d ≠ '>')).drop 1)
    else
      c :: removeTagsF fuel rest

/-- `SharedMarkdownProcessor.RemoveHTMLTags`. -/
def removeTags (s : List Char) : List Char :=
  removeTagsF s.length s

/-- `SharedMarkdownProcessor.ExtractCodeLanguage`: the capture of the leftmost
match of `class="language-([^"]*)"`, or `""`. -/
def extractCodeLanguage : List Char → List Char
  | [] => []
  | c :: rest =>
    if (cs "class=\"language-").isPrefixOf (c :: rest) then
      let r := (c :: rest).drop (cs "class=\"language-").length
      let name := r.takeWhile (fun d => d ≠ '\"')
      if r.drop name.length ≠ [] then name
      else extractCodeLanguage rest
    else extractCodeLanguage rest

/-- Shared body of `ExtractHeaderContent`: trimmed capture of
`op[^>]*>(.*?)cl`, or `""` when there is no match (Go cannot distinguish an
empty header from a failed match here, and neither can the callers). -/
def headerContentAux (op cl line : List Char) : List Char :=
  match findTagContent op cl line with
  | some c => trimSpace c
  | none => []

/-- `SharedMarkdownProcessor.ExtractHeaderContent` (main.go); gui.go inlines
the identical regexes. -/
def ExtractHeaderContent (line : List Char) (level : Nat) : List Char :=
  match level with
  | 1 => headerContentAux (cs "<h1") (cs "</h1>") line
  | 2 => headerContentAux (cs "<h2") (cs "</h2>") line
  | 3 => headerContentAux (cs "<h3") (cs "</h3>") line
  | 4 => headerContentAux (cs "<h4") (cs "</h4>") line
  | _ => []

/-- `re.ReplaceAllStringFunc` for a pattern `op[^>]*>(.*?)cl`, replacing every
leftmost non-overlapping match by `f` of its captured group (the Go callbacks
re-run `FindStringSubmatch` on the match, recovering exactly that group).
Every match consumes at least `op.length ≥ 1` characters, so `s.length` fuel
suffices. -/
def replTagF (op cl : List Char) (f : List Char → List Char) :
    Nat → List Char → List Char
  | _, [] => []
  | 0, s => s
  | fuel + 1, c :: rest =>
    match tryTag op cl (c :: rest) with
    | some (content, len) => f content ++ replTagF op cl f fuel ((c :: rest).drop len)
    | none => c :: replTagF op cl f fuel rest

/-- Wrapper supplying the fuel for `replTagF`. -/
def replTag (op cl : List Char) (f : List Char → List Char) (s : List Char) :
    List Char :=
  replTagF op cl f s.length s

/-- `processInlineFormatting` (gui.go): inline code / bold / italic tag pairs
become backticked / starred markdown, contents trimmed, in that order. -/
def processInlineFormattingMD (content : List Char) : List Char :=
  let c1 := replTag (cs "<code") (cs "</code>")
    (fun t => '`' :: (trimSpace t ++ ['`'])) content
  let c2 := replTag (cs "<strong") (cs "</strong>")
    (fun t => cs "**" ++ trimSpace t ++ cs "**") c1
  replTag (cs "<em") (cs "</em>")
    (fun t => '*' :: (trimSpace t ++ ['*'])) c2

/-- `processInlineFormatting` (terminal.go): the same pattern scan, but the
replacement is a lipgloss-styled string — code keeps its backticks, bold and
italic keep just the trimmed content (styling itself is display-only and
modelled as the identity). -/
def processInlineFormattingTerm (content : List Char) : List Char :=
  let c1 := replTag (cs "<code") (cs "</code>")
    (fun t => '`' :: (trimSpace t ++ ['`'])) content
  let c2 := replTag (cs "<strong") (cs "</strong>") (fun t => trimSpace t) c1
  replTag (cs "<em") (cs "</em>") (fun t => trimSpace t) c2

/-- `numRe.FindStringSubmatch` for `(\d+)\.`: the digits of the leftmost
maximal digit run that is immediately followed by `'.'`. -/
def findNum : List Char → Option (List Char)
  | [] => none
  | c :: rest =>
    if c.isDigit then
      let run := (c :: rest).takeWhile Char.isDigit
      match (c :: rest).drop run.length with
      | '.' :: _ => some run
      | _ => findNum rest
    else findNum rest

/-- `numRe.ReplaceAllString(s, "")` for `(\d+)\.`: every maximal digit run
followed by `'.'` is removed together with the dot.  Each removal consumes at
least two characters, so `s.length` fuel suffices. -/
def numRemoveF : Nat → List Char → List Char
  | _, [] => []
  | 0, s => s
  | fuel + 1, c :: rest =>
    if c.isDigit then
      let run := (c :: rest).takeWhile Char.isDigit
      match (c :: rest).drop run.length with
      | '.' :: after => numRemoveF fuel after
      | _ => c :: numRemoveF fuel rest
    else c :: numRemoveF fuel rest

/-- Wrapper supplying the fuel for `numRemoveF`. -/
def numRemoveAll (s : List Char) : List Char :=
  numRemoveF s.length s

/-- Go `strings.Fields`: the maximal whitespace-free runs of `s`, in order. -/
def fieldsAux (cur : List Char) : List Char → List (List Char)
  | [] => if cur = [] then [] else [cur]
  | c :: rest =>
    if isWS c then
      if cur = [] then fieldsAux [] rest else cur :: fieldsAux [] rest
    else fieldsAux (cur ++ [c]) rest

/-- Go `strings.Fields`. -/
def fields (s : List Char) : List (List Char) := fieldsAux [] s

/-- The loop of `wrapText` (terminal.go): greedy word packing with the quirk
that a word containing a backtick is glued onto the current line without a
width check while the running backtick count is odd. -/
def wrapTextLoop (indentStr : List Char) (width : Int) :
    List (List Char) → Nat → List (List Char) → List Char →
    List (List Char) × List Char
  | [], _, lines, cur => (lines, cur)
  | w :: ws, i, lines, cur =>
    if containsSub w (cs "`") && (cur ++ ' ' :: w).count '`' % 2 = 1 then
      wrapTextLoop indentStr width ws (i + 1) lines
        (if cur ≠ [] then cur ++ ' ' :: w else w)
    else
      let testLine := (if cur ≠ [] then cur ++ [' '] else cur) ++ w
      let linePre := if i = 0 ∨ cur = [] then [] else indentStr
      if ((linePre ++ testLine).length : Int) ≤ width then
        wrapTextLoop indentStr width ws (i + 1) lines testLine
      else if cur ≠ [] then
        wrapTextLoop indentStr width ws (i + 1) (lines ++ [linePre ++ cur]) w
      else
        wrapTextLoop indentStr width ws (i + 1) (lines ++ [linePre ++ w]) []

/-- The flush after the loops of `wrapText` / `wrapTextWithInlineCode`:
a non-empty current line is emitted, indented unless it is the first line. -/
def wrapFlush (indentStr : List Char) :
    List (List Char) × List Char → List (List Char)
  | (lines, cur) =>
    if cur ≠ [] then
      lines ++ [(if lines = [] then [] else indentStr) ++ cur]
    else lines

/-- `wrapText` (terminal.go): plain greedy word wrapping.  Text containing an
ANSI escape introducer is returned untouched, as is text with no fields. -/
def wrapText (text : List Char) (width : Int) (indent : Nat) : List Char :=
  if width ≤ 0 then text
  else if containsSub text (cs "\x1b[") then text
  else
    let words := fields text
    if words = [] then text
    else
      joinNL (wrapFlush (List.replicate indent ' ')
        (wrapTextLoop (List.replicate indent ' ') width words 0 [] []))

/-- `textSegment` (terminal.go). -/
structure textSegment where
  text : List Char
  isCode : Bool
deriving DecidableEq, Repr

/-- The scanning loop of `splitTextPreservingCode` (terminal.go): `cur` is the
builder contents and `inCode` the backtick state. -/
def splitGo (cur : List Char) (inCode : Bool) : List Char → List textSegment
  | [] => if cur ≠ [] then [⟨cur, inCode⟩] else []
  | c :: rest =>
    if c = '`' then
      if inCode then
        ⟨cur ++ ['`'], true⟩ :: splitGo [] false rest
      else
        (if cur ≠ [] then [(⟨cur, false⟩ : textSegment)] else [])
          ++ splitGo ['`'] true rest
    else if c = ' ' ∧ inCode = false then
      (if cur ≠ [] then [(⟨cur, false⟩ : textSegment)] else [])
        ++ splitGo [] false rest
    else splitGo (cur ++ [c]) inCode rest

/-- `splitTextPreservingCode` (terminal.go): whitespace-split segments with
backtick-delimited spans kept whole and flagged as code. -/
def splitTextPreservingCode (text : List Char) : List textSegment :=
  splitGo [] false text

/-- The loop of `wrapTextWithInlineCode` (terminal.go): segments are packed
greedily; a code segment is appended with no preceding space and is never
split even when it exceeds the width. -/
def wrapInlineLoop (indentStr : List Char) (width : Int) :
    List textSegment → Nat → List (List Char) → List Char →
    List (List Char) × List Char
  | [], _, lines, cur => (lines, cur)
  | seg :: segs, i, lines, cur =>
    let isCode := (cs "`").isPrefixOf seg.text && (cs "`").isSuffixOf seg.text
    let testLine := (if cur ≠ [] ∧ isCode = false then cur ++ [' '] else cur) ++ seg.text
    let linePre := if i = 0 ∨ cur = [] then ([] : List Char) else indentStr
    if ((linePre ++ testLine).length : Int) ≤ width ∨ isCode = true then
      wrapInlineLoop indentStr width segs (i + 1) lines
        (if cur = [] then seg.text
         else if isCode then cur ++ seg.text
         else cur ++ ' ' :: seg.text)
    else if cur ≠ [] then
      wrapInlineLoop indentStr width segs (i + 1) (lines ++ [linePre ++ cur]) seg.text
    else
      wrapInlineLoop indentStr width segs (i + 1) (lines ++ [linePre ++ seg.text]) []

/-- The output lines of `wrapTextWithInlineCode` (terminal.go); the source
joins them with `"\n"` (and returns the text unchanged for `width ≤ 0`, here
rendered as the single line `[text]`). -/
def wrapTextWithInlineCodeLines (text : List Char) (width : Int) (indent : Nat) :
    List (List Char) :=
  if width ≤ 0 then [text]
  else
    wrapFlush (List.replicate indent ' ')
      (wrapInlineLoop (List.replicate indent ' ') width
        (splitTextPreservingCode text) 0 [] [])

/-- `wrapTextWithInlineCode` (terminal.go). -/
def wrapTextWithInlineCode (text : List Char) (width : Int) (indent : Nat) :
    List Char :=
  if width ≤ 0 then text
  else joinNL (wrapTextWithInlineCodeLines text width indent)

/-- `wrapTextPreservingCode` (terminal.go). -/
def wrapTextPreservingCode (text : List Char) (width : Int) (indent : Nat) :
    List Char :=
  if width ≤ 0 then text
  else if containsSub text (cs "`") then wrapTextWithInlineCode text width indent
  else wrapText text width indent

/-- The break characters of `findCodeBreakPoint` (terminal.go). -/
def isBreakChar (c : Char) : Bool :=
  c = ' ' || c = ',' || c = ';' || c = '.' || c = ')' || c = '}' || c = ']' ||
  c = '>' || c = '|' || c = '&' || c = '+' || c = '-' || c = '='

/-- The descending search loop of `findCodeBreakPoint`: `i` runs down while
`i > halfW`; positions beyond the line are skipped; a break character yields
`i` (space: break before) or `i + 1` (punctuation: break after); exhaustion
yields `halfW`.  Whenever the body indexes the line, `i > halfW ≥ 1` (the loop
is entered only for `maxWidth ≥ 3`), so `i.toNat` indexing is exact.  One fuel
unit per probe; the caller passes more than `maxWidth` units. -/
def findBreakLoop (line : List Char) (halfW : Int) : Nat → Int → Int
  | 0, _ => halfW
  | fuel + 1, i =>
    if i > halfW then
      if i ≥ (line.length : Int) then findBreakLoop line halfW fuel (i - 1)
      else if isBreakChar (line.getD i.toNat ' ') then
        if line.getD i.toNat ' ' = ' ' then i else i + 1
      else findBreakLoop line halfW fuel (i - 1)
    else halfW

/-- `findCodeBreakPoint` (terminal.go).  Go's `/` on int truncates toward
zero, which agrees with Lean's `Int.tdiv`. -/
def findCodeBreakPoint (line : List Char) (maxWidth : Int) : Int :=
  if maxWidth ≥ (line.length : Int) then (line.length : Int)
  else findBreakLoop line (Int.tdiv maxWidth 2) (maxWidth.toNat + 1) (maxWidth - 1)

/-- Leading-indentation count of `wrapCodeLine`: spaces count 1, tabs 4,
stopping at the first other character. -/
def goLeadingSpaces : List Char → Nat
  | [] => 0
  | c :: rest =>
    if c = ' ' then 1 + goLeadingSpaces rest
    else if c = '\t' then 4 + goLeadingSpaces rest
    else 0

/-- The wrapping loop of `wrapCodeLine` (terminal.go).  `none` models a Go
slice panic (`remaining[:bp]` with `bp` out of range).  On loop exit — either
because the remainder fits or because the shrunken width fell below the
20-column floor — the source appends the remainder inside the `break` and
then, because `remaining` was not cleared, appends it once more in the
unconditional post-loop `if remaining != ""`; both appends are modelled
verbatim.  Each iteration shrinks `maxWidth` by `contIndent.length ≥ 2` and
stops once it drops below 20, so `maxWidth.toNat + 1` fuel always suffices
(`wrapLoopF` is never the source of a `none` for the widths the program
uses). -/
def wrapLoopF (leading : Nat) (contIndent : List Char) :
    Nat → List Char → Int → List (List Char) → Option (List (List Char))
  | 0, _, _, _ => none
  | fuel + 1, remaining, maxWidth, lines =>
    if (remaining.length : Int) > maxWidth then
      let bp := findCodeBreakPoint remaining maxWidth
      if bp ≤ (leading : Int) then
        let bp2 := maxWidth - 3
        if bp2 < 0 ∨ (remaining.length : Int) < bp2 then none
        else
          let lines' := lines ++ [remaining.take bp2.toNat ++ cs "..."]
          let remaining' := contIndent ++ cs "..." ++ remaining.drop bp2.toNat
          let maxWidth' := maxWidth - (contIndent.length : Int)
          if maxWidth' < 20 then
            some ((lines' ++ [remaining']) ++
              if remaining' ≠ [] then [remaining'] else [])
          else wrapLoopF leading contIndent fuel remaining' maxWidth' lines'
      else
        if bp < 0 ∨ (remaining.length : Int) < bp then none
        else
          let lines' := lines ++ [remaining.take bp.toNat]
          let remaining' := contIndent ++ trimLeftSpace (remaining.drop bp.toNat)
          let maxWidth' := maxWidth - (contIndent.length : Int)
          if maxWidth' < 20 then
            some ((lines' ++ [remaining']) ++
              if remaining' ≠ [] then [remaining'] else [])
          else wrapLoopF leading contIndent fuel remaining' maxWidth' lines'
    else
      some (lines ++ if remaining ≠ [] then [remaining] else [])

/-- `wrapCodeLine` (terminal.go). -/
def wrapCodeLine (line : List Char) (maxWidth : Int) : Option (List (List Char)) :=
  if (line.length : Int) ≤ maxWidth then some [line]
  else
    let leading := goLeadingSpaces line
    wrapLoopF leading (List.replicate (leading + 2) ' ')
      (maxWidth.toNat + 1) line maxWidth []

/-- The per-line pass of `wrapCodeBlock`: short lines verbatim, long lines
through `wrapCodeLine`. -/
def wrapCodeBlockGo (maxWidth : Int) : List (List Char) → Option (List (List Char))
  | [] => some []
  | l :: ls =>
    if (l.length : Int) ≤ maxWidth then
      (wrapCodeBlockGo maxWidth ls).map (l :: ·)
    else
      match wrapCodeLine l maxWidth, wrapCodeBlockGo maxWidth ls with
      | some ws, some rest => some (ws ++ rest)
      | _, _ => none

/-- `wrapCodeBlock` (terminal.go). -/
def wrapCodeBlock (codeLines : List (List Char)) (maxWidth : Int) :
    Option (List Char) :=
  if maxWidth ≤ 20 then some (joinNL codeLines)
  else (wrapCodeBlockGo maxWidth codeLines).map joinNL

/-- The per-conversion mutable state of `htmlToMarkdown` (gui.go).
`blockCount` is a ghost observation added to the translation: it counts how
many times the fence-closing branch fired (i.e. how many code blocks were
emitted) and changes nothing else. -/
structure MDState where
  inCodeBlock : Bool
  codeBlockContent : List (List Char)
  codeBlockLang : List Char
  result : List (List Char)
  blockCount : Nat
deriving DecidableEq, Repr

/-- Initial state of one `htmlToMarkdown` invocation. -/
def initMDState : MDState := ⟨false, [], [], [], 0⟩

/-- One iteration of the line loop of `htmlToMarkdown` (gui.go), branch for
branch: blank line, fence open, fence close, inside fence, headers 1–4
(matched by `strings.Contains` then the `<hN[^>]*>(.*?)</hN>` regex, emitted
unconditionally once the regex matches), list containers (dropped), list
item, paragraph, blockquote, and the strip-and-pass-through fallback. -/
def processMDLine (st : MDState) (originalLine : List Char) : MDState :=
  let line := trimSpace originalLine
  if line = [] then
    if st.inCodeBlock then
      { st with codeBlockContent := st.codeBlockContent ++ [[]] }
    else { st with result := st.result ++ [[]] }
  else if containsSub line (cs "<pre><code") then
    let content := removeTags line
    { st with inCodeBlock := true,
              codeBlockLang := extractCodeLanguage line,
              codeBlockContent := if trimSpace content ≠ [] then [content] else [] }
  else if containsSub line (cs "</code></pre>") then
    let content := removeTags (replaceAll line (cs "</code></pre>") [])
    let cbc := if trimSpace content ≠ [] then st.codeBlockContent ++ [content]
               else st.codeBlockContent
    { st with inCodeBlock := false,
              codeBlockContent := cbc,
              result := st.result ++
                [(if st.codeBlockLang ≠ [] then cs "```" ++ st.codeBlockLang
                  else cs "```"),
                 joinNL cbc, cs "```", []],
              blockCount := st.blockCount + 1 }
  else if st.inCodeBlock then
    { st with codeBlockContent := st.codeBlockContent ++ [removeTags line] }
  else if containsSub line (cs "<h1") then
    match findTagContent (cs "<h1") (cs "</h1>") line with
    | some c => { st with result := st.result ++ [cs "# " ++ trimSpace c, []] }
    | none => st
  else if containsSub line (cs "<h2") then
    match findTagContent (cs "<h2") (cs "</h2>") line with
    | some c => { st with result := st.result ++ [cs "## " ++ trimSpace c, []] }
    | none => st
  else if containsSub line (cs "<h3") then
    match findTagContent (cs "<h3") (cs "</h3>") line with
    | some c => { st with result := st.result ++ [cs "### " ++ trimSpace c, []] }
    | none => st
  else if containsSub line (cs "<h4") then
    match findTagContent (cs "<h4") (cs "</h4>") line with
    | some c => { st with result := st.result ++ [cs "#### " ++ trimSpace c, []] }
    | none => st
  else if containsSub line (cs "<ol>") || containsSub line (cs "</ol>") then st
  else if containsSub line (cs "<ul>") || containsSub line (cs "</ul>") then st
  else if containsSub line (cs "<li>") then
    let content := trimSpace (removeTags (processInlineFormattingMD
      (replaceAll (replaceAll line (cs "<li>") []) (cs "</li>") [])))
    if content ≠ [] then
      let leadingSpaces := originalLine.length - (trimLeftSpaceTab originalLine).length
      let indent := if leadingSpaces ≥ 4 then cs "    "
                    else if leadingSpaces ≥ 2 then cs "  " else []
      match findNum content with
      | some n =>
        { st with result := st.result ++
            [indent ++ (n ++ cs ". ") ++ trimSpace (numRemoveAll content)] }
      | none =>
        { st with result := st.result ++ [indent ++ cs "- " ++ content] }
    else st
  else if containsSub line (cs "<p>") then
    let content := trimSpace (removeTags (processInlineFormattingMD
      (replaceAll (replaceAll line (cs "<p>") []) (cs "</p>") [])))
    if content ≠ [] then { st with result := st.result ++ [content, []] } else st
  else if containsSub line (cs "<blockquote>") then
    let content := trimSpace (removeTags (processInlineFormattingMD
      (replaceAll (replaceAll line (cs "<blockquote>") []) (cs "</blockquote>") [])))
    if content ≠ [] then { st with result := st.result ++ [cs "> " ++ content] }
    else st
  else
    let cleanLine := trimSpace (removeTags (processInlineFormattingMD line))
    if cleanLine ≠ [] then { st with result := st.result ++ [cleanLine] } else st

/-- The blank-collapsing post-pass of `htmlToMarkdown` (gui.go):
`result[i]` is skipped iff it is empty, `i > 0`, `i < len(result)-1` and the
original predecessor `result[i-1]` is empty.  The recursion carries the
original predecessor as `prev` (`none` for `i = 0`), and the `[x]` case is the
exempt last index. -/
def cleanAux (prev : Option (List Char)) : List (List Char) → List (List Char)
  | [] => []
  | [x] => [x]
  | x :: y :: rest =>
    if x = [] ∧ prev = some [] then cleanAux (some x) (y :: rest)
    else x :: cleanAux (some x) (y :: rest)

/-- The whole post-pass. -/
def cleanResult (result : List (List Char)) : List (List Char) :=
  cleanAux none result

/-- The final loop state of `htmlToMarkdown` (gui.go) on the given markup. -/
def htmlToMarkdownState (html : List Char) : MDState :=
  (splitLines (UnescapeHTML html)).foldl processMDLine initMDState

/-- The collapsed output line sequence of `htmlToMarkdown` (gui.go); the
source joins these with `"\n"`. -/
def htmlToMarkdownLines (html : List Char) : List (List Char) :=
  cleanResult (htmlToMarkdownState html).result

/-- `htmlToMarkdown` (gui.go). -/
def htmlToMarkdown (html : List Char) : List Char :=
  joinNL (htmlToMarkdownLines html)

/-- The per-conversion mutable state of `htmlToTerminal` (terminal.go), with
the same ghost `blockCount` observation as `MDState`. -/
structure TermState where
  inCodeBlock : Bool
  codeBlockContent : List (List Char)
  codeBlockLang : List Char
  formatted : List (List Char)
  blockCount : Nat
deriving DecidableEq, Repr

/-- Initial state of one `htmlToTerminal` invocation. -/
def initTermState : TermState := ⟨false, [], [], [], 0⟩

/-- The lower half of the line loop of `htmlToTerminal` (terminal.go): the
branches from the header checks down to the strip-and-pass-through fallback,
which never touch the fence state or the block counter and never panic.
`aw` is the `availableWidth` local; `line` is the trimmed line. -/
def processTermRest (aw : Int) (st : TermState) (originalLine line : List Char) :
    TermState :=
  if matchesOpenTag (cs "<h1") line then
    let content := ExtractHeaderContent line 1
    if content ≠ [] then
      { st with formatted := st.formatted ++
          [cs "▶ " ++ content.map Char.toUpper ++ cs " ◀", []] }
    else st
  else if matchesOpenTag (cs "<h2") line then
    let content := ExtractHeaderContent line 2
    if content ≠ [] then
      { st with formatted := st.formatted ++
          [cs "▶▶ " ++ content, List.replicate (content.length + 3) '═', []] }
    else st
  else if matchesOpenTag (cs "<h3") line then
    let content := ExtractHeaderContent line 3
    if content ≠ [] then
      { st with formatted := st.formatted ++ [cs "▶▶▶ " ++ content] }
    else st
  else if matchesOpenTag (cs "<h4") line then
    let content := ExtractHeaderContent line 4
    if content ≠ [] then
      { st with formatted := st.formatted ++ [cs "◦ " ++ content] }
    else st
  else if containsSub line (cs "<ol>") || containsSub line (cs "</ol>") then st
  else if containsSub line (cs "<ul>") || containsSub line (cs "</ul>") then st
  else if containsSub line (cs "<li>") then
    let content := trimSpace (removeTags (processInlineFormattingTerm
      (replaceAll (replaceAll line (cs "<li>") []) (cs "</li>") [])))
    if content ≠ [] then
      let leadingSpaces := originalLine.length - (trimLeftSpaceTab originalLine).length
      let indent := if leadingSpaces ≥ 4 then cs "    "
                    else if leadingSpaces ≥ 2 then cs "  " else ([] : List Char)
      let bullet := if leadingSpaces ≥ 4 then cs "◦"
                    else if leadingSpaces ≥ 2 then cs "▪" else cs "•"
      if containsSub originalLine (cs "1.") || containsSub originalLine (cs "2.") then
        match findNum content with
        | some n =>
          { st with formatted := st.formatted ++
              [indent ++ (n ++ cs ".") ++ ' ' :: trimSpace (numRemoveAll content)] }
        | none =>
          { st with formatted := st.formatted ++ [indent ++ bullet ++ ' ' :: content] }
      else { st with formatted := st.formatted ++ [indent ++ bullet ++ ' ' :: content] }
    else st
  else if containsSub line (cs "<p>") then
    let content := trimSpace (removeTags (processInlineFormattingTerm
      (replaceAll (replaceAll line (cs "<p>") []) (cs "</p>") [])))
    if content ≠ [] then
      let content2 := if (content.length : Int) > aw
                      then wrapTextPreservingCode content aw 0 else content
      { st with formatted := st.formatted ++ [content2, []] }
    else st
  else if containsSub line (cs "<blockquote>") then
    let content := trimSpace (removeTags (processInlineFormattingTerm
      (replaceAll (replaceAll line (cs "<blockquote>") []) (cs "</blockquote>") [])))
    if content ≠ [] then
      { st with formatted := st.formatted ++ [cs "❝ " ++ content] }
    else st
  else
    let cleanLine := trimSpace (removeTags (processInlineFormattingTerm line))
    if cleanLine ≠ [] then
      let c2 := if (cleanLine.length : Int) > aw
                then wrapTextPreservingCode cleanLine aw 0 else cleanLine
      { st with formatted := st.formatted ++ [c2] }
    else st

/-- One iteration of the line loop of `htmlToTerminal` (terminal.go), branch
for branch.  `aw` is the `availableWidth` local.  Lipgloss styling is the
identity on the rendered text, so header banners keep their glyph prefixes
and the code panel keeps its header line and wrapped body.  `none` models a
panic propagating out of `wrapCodeLine`. -/
def processTermLine (aw : Int) (st : TermState) (originalLine : List Char) :
    Option TermState :=
  let line := trimSpace originalLine
  if line = [] then
    some (if st.inCodeBlock then
      { st with codeBlockContent := st.codeBlockContent ++ [[]] }
    else { st with formatted := st.formatted ++ [[]] })
  else if containsSub line (cs "<pre><code") then
    let content := removeTags line
    some { st with inCodeBlock := true,
                   codeBlockLang := extractCodeLanguage line,
                   codeBlockContent := if trimSpace content ≠ [] then [content] else [] }
  else if containsSub line (cs "</code></pre>") then
    let content := removeTags (replaceAll line (cs "</code></pre>") [])
    let cbc := if trimSpace content ≠ [] then st.codeBlockContent ++ [content]
               else st.codeBlockContent
    let codeHeader := if st.codeBlockLang ≠ [] then st.codeBlockLang.map Char.toUpper
                      else cs "Code"
    match wrapCodeBlock cbc (aw - 6) with
    | some codeContent =>
      some { st with inCodeBlock := false,
                     codeBlockContent := cbc,
                     formatted := st.formatted ++
                       [cs "┌─ " ++ codeHeader ++ cs " ─┐", codeContent],
                     blockCount := st.blockCount + 1 }
    | none => none
  else if st.inCodeBlock then
    some { st with codeBlockContent := st.codeBlockContent ++ [removeTags line] }
  else
    some (processTermRest aw st originalLine line)

/-- The line loop of `htmlToTerminal`, propagating a panic as `none`. -/
def runTermLines (aw : Int) : TermState → List (List Char) → Option TermState
  | st, [] => some st
  | st, l :: ls =>
    match processTermLine aw st l with
    | some st' => runTermLines aw st' ls
    | none => none

/-- `availableWidth` as computed at the top of `htmlToTerminal` from the
model width: `m.width - 8`, floored at 40. -/
def availableWidth (w : Int) : Int :=
  if w - 8 < 40 then 40 else w - 8

/-- The final loop state of `htmlToTerminal` (terminal.go) at width `w`. -/
def htmlToTerminalState (w : Int) (html : List Char) : Option TermState :=
  runTermLines (availableWidth w) initTermState (splitLines (UnescapeHTML html))

/-- `htmlToTerminal` (terminal.go); the source joins the accumulated entries
with `"\n"`. -/
def htmlToTerminal (w : Int) (html : List Char) : Option (List Char) :=
  (htmlToTerminalState w html).map (fun st => joinNL st.formatted)

/-- Delete every space character (used to compare wrapped output with its
input up to spacing). -/
def stripSpaces (s : List Char) : List Char :=
  s.filter (fun c => c ≠ ' ')

/-- Join a line list with single spaces (the reading of "concatenating all
output lines with single spaces" in the spec). -/
def joinSpace (ls : List (List Char)) : List Char :=
  match ls with
  | [] => []
  | [l] => l
  | l :: ls => l ++ ' ' :: joinSpace ls

/-- A line on which the fence-opening branch condition of both conversions
holds: the trimmed line contains `"<pre><code"`. -/
def isOpenLine (l : List Char) : Bool :=
  containsSub (trimSpace l) (cs "<pre><code")

/-- A line on which the fence-closing branch condition of both conversions
holds (when not preempted by the opening marker): the trimmed line contains
`"</code></pre>"`. -/
def isCloseLine (l : List Char) : Bool :=
  containsSub (trimSpace l) (cs "</code></pre>")

/-- Modelled from the spec's words for the list-item indentation rule, for
comparison with the code: "≥4 spaces → 4-space indent, ≥2 spaces → 2-space
indent, else none". -/
def specListIndent (k : Nat) : List Char :=
  if 4 ≤ k then cs "    " else if 2 ≤ k then cs "  " else []

/-- The five character references of the unescaper. -/
def refs5 : List (List Char) :=
  [cs "&lt;", cs "&gt;", cs "&amp;", cs "&quot;", cs "&#39;"]

/-- The four references other than `&amp;`. -/
def refsNoAmp : List (List Char) :=
  [cs "&lt;", cs "&gt;", cs "&quot;", cs "&#39;"]

/-- `TokSeq A s`: `s` is a concatenation of tokens, each either a single
character other than `'&'` or one of the character references listed in `A`.
This is the formal reading of "a string containing only the known character
references": every ampersand starts one of the listed references. -/
inductive TokSeq (A : List (List Char)) : List Char → Prop
  | nil : TokSeq A []
  | chr {c : Char} {rest : List Char} : c ≠ '&' → TokSeq A rest →
      TokSeq A (c :: rest)
  | ref {t rest : List Char} : t ∈ A → TokSeq A rest → TokSeq A (t ++ rest)

end Parselt

namespace Parselt

theorem replaceAllF_congr {pat rep : List Char} (hp : pat ≠ []) :
    ∀ (f g : Nat) (s : List Char), s.length ≤ f → s.length ≤ g →
      replaceAllF pat rep f s = replaceAllF pat rep g s := by
  intro f
  induction f with
  | zero =>
    intro g s hf _
    have hs : s = [] := by cases s with
      | nil => rfl
      | cons c r => simp at hf
    subst hs
    cases g <;> rfl
  | succ f ih =>
    intro g s hf hg
    cases s with
    | nil => cases g <;> rfl
    | cons c r =>
      cases g with
      | zero => simp at hg
      | succ g =>
        simp only [replaceAllF]
        by_cases hpre : pat.isPrefixOf (c :: r) = true
        · rw [if_pos hpre, if_pos hpre]
          have hplen : 0 < pat.length := List.length_pos.mpr hp
          have hd : ((c :: r).drop pat.length).length ≤ f := by
            simp only [List.length_drop, List.length_cons]
            simp only [List.length_cons] at hf
            omega
          have hd' : ((c :: r).drop pat.length).length ≤ g := by
            simp only [List.length_drop, List.length_cons]
            simp only [List.length_cons] at hg
            omega
          rw [ih g ((c :: r).drop pat.length) hd hd']
        · rw [if_neg hpre, if_neg hpre]
          have hr : r.length ≤ f := by simp only [List.length_cons] at hf; omega
          have hr' : r.length ≤ g := by simp only [List.length_cons] at hg; omega
          rw [ih g r hr hr']

theorem replaceAll_nil (pat rep : List Char) : replaceAll [] pat rep = [] := by
  unfold replaceAll
  split
  · rfl
  · rfl

theorem replaceAll_cons_match {pat rest rep : List Char} (hp : pat ≠ []) :
    replaceAll (pat ++ rest) pat rep = rep ++ replaceAll rest pat rep := by
  obtain ⟨p, pt, rfl⟩ : ∃ p pt, pat = p :: pt := by
    cases pat with
    | nil => exact absurd rfl hp
    | cons p pt => exact ⟨p, pt, rfl⟩
  unfold replaceAll
  rw [if_neg hp, if_neg hp]
  have hpre : (p :: pt).isPrefixOf ((p :: pt) ++ rest) = true :=
    List.isPrefixOf_iff_prefix.mpr (List.prefix_append _ _)
  have hlen : ((p :: pt) ++ rest).length = (pt ++ rest).length + 1 := by simp
  rw [hlen]
  have hstep : replaceAllF (p :: pt) rep ((pt ++ rest).length + 1) ((p :: pt) ++ rest) =
      rep ++ replaceAllF (p :: pt) rep ((pt ++ rest).length)
        (((p :: pt) ++ rest).drop (p :: pt).length) := by
    show replaceAllF (p :: pt) rep ((pt ++ rest).length + 1) (p :: (pt ++ rest)) = _
    simp only [replaceAllF]
    rw [if_pos (show (p :: pt).isPrefixOf (p :: (pt ++ rest)) = true from by
      rw [← List.cons_append]; exact hpre)]
    rw [← List.cons_append]
  rw [hstep]
  congr 1
  rw [List.drop_left]
  exact replaceAllF_congr hp _ _ rest (by simp) (le_refl _)

theorem replaceAll_cons_nomatch {pat rep : List Char} {c : Char} {rest : List Char}
    (hp : pat ≠ []) (hpre : ¬ pat.isPrefixOf (c :: rest) = true) :
    replaceAll (c :: rest) pat rep = c :: replaceAll rest pat rep := by
  unfold replaceAll
  rw [if_neg hp, if_neg hp]
  rw [show (c :: rest).length = rest.length + 1 from by simp]
  simp only [replaceAllF]
  rw [if_neg hpre]

end Parselt

namespace Parselt

theorem not_prefixOf_head {p c : Char} {pt rest : List Char} (h : p ≠ c) :
    ¬ (p :: pt).isPrefixOf (c :: rest) = true := by
  simp only [List.isPrefixOf, Bool.and_eq_true, beq_iff_eq]
  intro hco
  exact h hco.1

theorem not_prefixOf_second {a p1 t1 : Char} {ppt ttt : List Char}
    (h : p1 ≠ t1) :
    ¬ (a :: p1 :: ppt).isPrefixOf (a :: t1 :: ttt) = true := by
  simp only [List.isPrefixOf, Bool.and_eq_true, beq_iff_eq]
  intro hco
  exact h hco.2.1

theorem replaceAll_append_of_no_amp (pt rep : List Char) :
    ∀ {u v : List Char}, '&' ∉ u →
      replaceAll (u ++ v) ('&' :: pt) rep = u ++ replaceAll v ('&' :: pt) rep := by
  intro u
  induction u with
  | nil => intro v _; simp
  | cons c cu ih =>
    intro v hu
    have hc : c ≠ '&' := fun h => hu (h ▸ List.mem_cons_self c cu)
    have hcu : '&' ∉ cu := fun h => hu (List.mem_cons_of_mem _ h)
    rw [List.cons_append,
      replaceAll_cons_nomatch (List.cons_ne_nil _ _) (not_prefixOf_head (Ne.symm hc)),
      ih hcu, List.cons_append]

theorem replaceAll_id_of_no_amp (pt rep : List Char) {s : List Char}
    (hs : '&' ∉ s) : replaceAll s ('&' :: pt) rep = s := by
  have h : replaceAll (s ++ []) ('&' :: pt) rep = s ++ replaceAll [] ('&' :: pt) rep :=
    replaceAll_append_of_no_amp pt rep hs
  simpa [replaceAll_nil] using h

theorem TokSeq.append_chrs {A : List (List Char)} {u v : List Char}
    (hu : '&' ∉ u) (hv : TokSeq A v) : TokSeq A (u ++ v) := by
  induction u with
  | nil => exact hv
  | cons c cu ih =>
    exact TokSeq.chr (fun h => hu (h ▸ List.mem_cons_self c cu))
      (ih (fun h => hu (List.mem_cons_of_mem _ h)))

/-- Every reference is an ampersand followed by an ampersand-free tail. -/
theorem refShape {t : List Char} (ht : t ∈ refs5) :
    ∃ t1 tt, t = '&' :: t1 :: tt ∧ '&' ∉ (t1 :: tt) := by
  simp only [refs5, cs, List.mem_cons, List.not_mem_nil, or_false] at ht
  rcases ht with rfl | rfl | rfl | rfl | rfl <;>
    exact ⟨_, _, rfl, by decide⟩

/-- Two distinct references share the leading ampersand but differ at the
second character. -/
theorem refs5_pair {p t : List Char} (hp : p ∈ refs5) (ht : t ∈ refs5)
    (hne : t ≠ p) :
    ∃ p1 ppt t1 ttt, p = '&' :: p1 :: ppt ∧ t = '&' :: t1 :: ttt ∧
      p1 ≠ t1 ∧ '&' ∉ (t1 :: ttt) := by
  simp only [refs5, cs, List.mem_cons, List.not_mem_nil, or_false] at hp ht
  rcases hp with rfl | rfl | rfl | rfl | rfl <;>
    rcases ht with rfl | rfl | rfl | rfl | rfl <;>
      first
        | exact absurd rfl hne
        | exact ⟨_, _, _, _, rfl, rfl, by decide, by decide⟩

theorem replaceAll_tokseq (pat rep : List Char) {A : List (List Char)}
    {s : List Char}
    (hs : TokSeq A s) (hA : ∀ t ∈ A, t ∈ refs5) (hpat : pat ∈ refs5)
    (hrep : '&' ∉ rep) :
    TokSeq (A.filter (fun t => t ≠ pat)) (replaceAll s pat rep) := by
  obtain ⟨p1, ppt, hpshape, -⟩ := refShape hpat
  have hpne : pat ≠ [] := by rw [hpshape]; exact List.cons_ne_nil _ _
  induction hs with
  | nil => rw [replaceAll_nil]; exact TokSeq.nil
  | @chr c rest hc _ ih =>
    rw [replaceAll_cons_nomatch hpne
      (by rw [hpshape]; exact not_prefixOf_head (Ne.symm hc))]
    exact TokSeq.chr hc ih
  | @ref t rest ht _ ih =>
    by_cases he : t = pat
    · subst he
      rw [replaceAll_cons_match hpne]
      exact TokSeq.append_chrs hrep ih
    · obtain ⟨q1, qpt, t1, ttt, hqshape, htshape, h12, hampfree⟩ :=
        refs5_pair hpat (hA t ht) he
      have h12' : p1 ≠ t1 := by
        have : '&' :: p1 :: ppt = '&' :: q1 :: qpt := hpshape ▸ hqshape
        injection this with _ h2
        injection h2 with h3 _
        exact h3 ▸ h12
      have hpre : ¬ pat.isPrefixOf ('&' :: ((t1 :: ttt) ++ rest)) = true := by
        rw [hpshape]; exact not_prefixOf_second h12'
      have hwalk : replaceAll ((t1 :: ttt) ++ rest) pat rep =
          (t1 :: ttt) ++ replaceAll rest pat rep := by
        rw [hpshape]; exact replaceAll_append_of_no_amp _ _ hampfree
      rw [htshape, List.cons_append, replaceAll_cons_nomatch hpne hpre, hwalk,
        ← List.cons_append, ← htshape]
      exact TokSeq.ref (List.mem_filter.mpr ⟨ht, by simpa using he⟩) ih

theorem replaceAll_tokseq_id (pat rep : List Char) {A : List (List Char)}
    {s : List Char}
    (hs : TokSeq A s) (hA : ∀ t ∈ A, t ∈ refs5) (hpat : pat ∈ refs5)
    (hnotin : pat ∉ A) :
    replaceAll s pat rep = s := by
  obtain ⟨p1, ppt, hpshape, -⟩ := refShape hpat
  have hpne : pat ≠ [] := by rw [hpshape]; exact List.cons_ne_nil _ _
  induction hs with
  | nil => exact replaceAll_nil _ _
  | @chr c rest hc _ ih =>
    rw [replaceAll_cons_nomatch hpne
      (by rw [hpshape]; exact not_prefixOf_head (Ne.symm hc)), ih]
  | @ref t rest ht _ ih =>
    have he : t ≠ pat := fun h => hnotin (h ▸ ht)
    obtain ⟨q1, qpt, t1, ttt, hqshape, htshape, h12, hampfree⟩ :=
      refs5_pair hpat (hA t ht) he
    have h12' : p1 ≠ t1 := by
      have : '&' :: p1 :: ppt = '&' :: q1 :: qpt := hpshape ▸ hqshape
      injection this with _ h2
      injection h2 with h3 _
      exact h3 ▸ h12
    have hpre : ¬ pat.isPrefixOf ('&' :: ((t1 :: ttt) ++ rest)) = true := by
      rw [hpshape]; exact not_prefixOf_second h12'
    have hwalk : replaceAll ((t1 :: ttt) ++ rest) pat rep =
        (t1 :: ttt) ++ replaceAll rest pat rep := by
      rw [hpshape]; exact replaceAll_append_of_no_amp _ _ hampfree
    rw [htshape, List.cons_append, replaceAll_cons_nomatch hpne hpre, hwalk, ih]

theorem TokSeq_nil_no_amp {s : List Char} (hs : TokSeq ([] : List (List Char)) s) :
    '&' ∉ s := by
  induction hs with
  | nil => exact List.not_mem_nil _
  | @chr c rest hc _ ih =>
    intro h
    rcases List.mem_cons.mp h with h | h
    · exact hc h.symm
    · exact ih h
  | @ref t rest ht _ _ => exact absurd ht (List.not_mem_nil _)

end Parselt

namespace Parselt

theorem TokSeq.mono {A B : List (List Char)} {s : List Char}
    (h : TokSeq A s) (hAB : ∀ t ∈ A, t ∈ B) : TokSeq B s := by
  induction h with
  | nil => exact TokSeq.nil
  | chr hc _ ih => exact TokSeq.chr hc ih
  | ref ht _ ih => exact TokSeq.ref (hAB _ ht) ih

theorem hA_filter {A : List (List Char)} (p : List Char → Bool)
    (hA : ∀ t ∈ A, t ∈ refs5) : ∀ t ∈ A.filter p, t ∈ refs5 :=
  fun t ht => hA t (List.mem_filter.mp ht).1

/-- C2 (amended): on strings made only of the four references other than
`&amp;` (and ordinary non-ampersand characters), `UnescapeHTML` is
idempotent: one pass removes every reference and introduces no ampersand, so
a second pass is the identity. -/
theorem C2_unescape_idempotent (s : List Char) (hs : TokSeq refsNoAmp s) :
    UnescapeHTML (UnescapeHTML s) = UnescapeHTML s := by
  have hA0 : ∀ t ∈ refsNoAmp, t ∈ refs5 := by
    intro t ht
    simp only [refsNoAmp, List.mem_cons, List.not_mem_nil, or_false] at ht
    rcases ht with rfl | rfl | rfl | rfl <;> simp [refs5]
  -- pass 1: &lt;
  have h1 := replaceAll_tokseq (cs "&lt;") (cs "<") hs hA0 (by simp [refs5]) (by decide)
  have hA1 := hA_filter (fun t => decide (t ≠ cs "&lt;")) hA0
  -- pass 2: &gt;
  have h2 := replaceAll_tokseq (cs "&gt;") (cs ">") h1 hA1 (by simp [refs5]) (by decide)
  have hA2 := hA_filter (fun t => decide (t ≠ cs "&gt;")) hA1
  -- pass 3: &amp; changes nothing (no &amp; token is allowed)
  have hampnot : cs "&amp;" ∉
      List.filter (fun t => decide (t ≠ cs "&gt;"))
        (List.filter (fun t => decide (t ≠ cs "&lt;")) refsNoAmp) := by
    intro h
    have h' := (List.mem_filter.mp (List.mem_filter.mp h).1).1
    revert h'
    decide
  have h3eq := replaceAll_tokseq_id (cs "&amp;") (cs "&") h2 hA2 (by simp [refs5]) hampnot
  have h3 : TokSeq
      (List.filter (fun t => decide (t ≠ cs "&gt;"))
        (List.filter (fun t => decide (t ≠ cs "&lt;")) refsNoAmp))
      (replaceAll (replaceAll (replaceAll s (cs "&lt;") (cs "<"))
        (cs "&gt;") (cs ">")) (cs "&amp;") (cs "&")) := by
    rw [h3eq]; exact h2
  -- pass 4: &quot;
  have h4 := replaceAll_tokseq (cs "&quot;") (cs "\"") h3 hA2 (by simp [refs5]) (by decide)
  have hA3 := hA_filter (fun t => decide (t ≠ cs "&quot;")) hA2
  -- pass 5: &#39;
  have h5 := replaceAll_tokseq (cs "&#39;") (cs "\'") h4 hA3 (by simp [refs5]) (by decide)
  -- after all passes no reference token may remain
  have hempty : TokSeq ([] : List (List Char)) (UnescapeHTML s) := by
    refine TokSeq.mono h5 ?_
    intro t ht
    exfalso
    have h1m := List.mem_filter.mp ht
    have h2m := List.mem_filter.mp h1m.1
    have h3m := List.mem_filter.mp h2m.1
    have h4m := List.mem_filter.mp h3m.1
    have hmem := h4m.1
    simp only [refsNoAmp, List.mem_cons, List.not_mem_nil, or_false] at hmem
    rcases hmem with rfl | rfl | rfl | rfl
    · exact absurd h4m.2 (by decide)
    · exact absurd h3m.2 (by decide)
    · exact absurd h2m.2 (by decide)
    · exact absurd h1m.2 (by decide)
  have hamp : '&' ∉ UnescapeHTML s := TokSeq_nil_no_amp hempty
  have hU : ∀ x : List Char, UnescapeHTML x =
      replaceAll (replaceAll (replaceAll (replaceAll (replaceAll
        x (cs "&lt;") (cs "<"))
             (cs "&gt;") (cs ">"))
             (cs "&amp;") (cs "&"))
             (cs "&quot;") (cs "\""))
             (cs "&#39;") (cs "\'") := fun x => rfl
  rw [hU (UnescapeHTML s),
    show cs "&lt;" = '&' :: cs "lt;" from rfl,
    show cs "&gt;" = '&' :: cs "gt;" from rfl,
    show cs "&amp;" = '&' :: cs "amp;" from rfl,
    show cs "&quot;" = '&' :: cs "quot;" from rfl,
    show cs "&#39;" = '&' :: cs "#39;" from rfl,
    replaceAll_id_of_no_amp (cs "lt;") (cs "<") hamp,
    replaceAll_id_of_no_amp (cs "gt;") (cs ">") hamp,
    replaceAll_id_of_no_amp (cs "amp;") (cs "&") hamp,
    replaceAll_id_of_no_amp (cs "quot;") (cs "\"") hamp,
    replaceAll_id_of_no_amp (cs "#39;") (cs "\'") hamp]

end Parselt

namespace Parselt

/-- C2 counterexample: `"&amp;lt;"` contains only the five known references
(its single ampersand starts `&amp;`), yet `UnescapeHTML` is not idempotent
on it — the first pass decodes `&amp;` and thereby manufactures `"&lt;"`,
which the second pass decodes further to `"<"`. -/
theorem C2_counterexample :
    TokSeq refs5 (cs "&amp;lt;") ∧
    UnescapeHTML (cs "&amp;lt;") = cs "&lt;" ∧
    UnescapeHTML (UnescapeHTML (cs "&amp;lt;")) ≠ UnescapeHTML (cs "&amp;lt;") := by
  refine ⟨?_, by decide, by decide⟩
  rw [show cs "&amp;lt;" = cs "&amp;" ++ cs "lt;" from rfl]
  refine TokSeq.ref (by simp [refs5]) ?_
  show TokSeq refs5 ('l' :: 't' :: ';' :: [])
  exact TokSeq.chr (by decide) (TokSeq.chr (by decide)
    (TokSeq.chr (by decide) TokSeq.nil))

/-- Witness for `C2_unescape_idempotent` at the concrete input `"&lt;x"`. -/
theorem C2_unescape_idempotent_witness :
    UnescapeHTML (UnescapeHTML (cs "&lt;x")) = UnescapeHTML (cs "&lt;x") :=
  C2_unescape_idempotent (cs "&lt;x")
    (by
      rw [show cs "&lt;x" = cs "&lt;" ++ cs "x" from rfl]
      refine TokSeq.ref (by simp [refsNoAmp]) ?_
      show TokSeq refsNoAmp ('x' :: [])
      exact TokSeq.chr (by decide) TokSeq.nil)

end Parselt

namespace Parselt

/-- A kept empty line whose predecessor state is "previous original line was
empty" can only be the final lone element. -/
theorem cleanAux_head_empty :
    ∀ m : List (List Char), (cleanAux (some []) m).head? = some [] →
      cleanAux (some []) m = [[]] := by
  intro m
  induction m with
  | nil => intro h; simp [cleanAux] at h
  | cons x rest ih =>
    cases rest with
    | nil =>
      intro h
      simp only [cleanAux, List.head?_cons, Option.some.injEq] at h
      simp [cleanAux, h]
    | cons y rest' =>
      by_cases hx : x = [] 
      · subst hx
        intro h
        rw [show cleanAux (some []) ([] :: y :: rest')
            = cleanAux (some []) (y :: rest') from by
          simp [cleanAux]] at h ⊢
        exact ih h
      · intro h
        rw [show cleanAux (some []) (x :: y :: rest')
            = x :: cleanAux (some x) (y :: rest') from by
          simp [cleanAux, hx]] at h
        simp only [List.head?_cons, Option.some.injEq] at h
        exact absurd h hx

/-- Any two adjacent empty lines in the collapsed output are its final two
elements. -/
theorem cleanAux_no_interior_blanks :
    ∀ (m : List (List Char)) (prev : Option (List Char)) (i : Nat),
      (cleanAux prev m).get? i = some [] →
      (cleanAux prev m).get? (i + 1) = some [] →
      i + 2 = (cleanAux prev m).length := by
  intro m
  induction m with
  | nil => intro prev i h1 _; simp [cleanAux] at h1
  | cons x rest ih =>
    cases rest with
    | nil =>
      intro prev i h1 h2
      simp only [cleanAux] at h1 h2
      cases i with
      | zero => simp at h2
      | succ j => simp at h1
    | cons y rest' =>
      intro prev i h1 h2
      by_cases hskip : x = [] ∧ prev = some []
      · rw [show cleanAux prev (x :: y :: rest')
            = cleanAux (some x) (y :: rest') from by
          simp [cleanAux, hskip.1, hskip.2]] at h1 h2 ⊢
        exact ih (some x) i h1 h2
      · rw [show cleanAux prev (x :: y :: rest')
            = x :: cleanAux (some x) (y :: rest') from by
          rw [cleanAux]
          rw [if_neg hskip]] at h1 h2 ⊢
        cases i with
        | zero =>
          simp only [List.get?_cons_zero, Option.some.injEq] at h1
          subst h1
          simp only [List.get?_cons_succ] at h2
          have hhd : (cleanAux (some []) (y :: rest')).head? = some [] := by
            cases hh : cleanAux (some []) (y :: rest') with
            | nil => rw [hh] at h2; simp at h2
            | cons a b =>
              rw [hh] at h2
              simp only [List.get?_cons_zero, Option.some.injEq] at h2
              rw [h2]
              rfl
          rw [cleanAux_head_empty (y :: rest') hhd]
          rfl
        | succ j =>
          simp only [List.get?_cons_succ] at h1 h2
          have := ih (some x) j h1 h2
          simp only [List.length_cons]
          omega

end Parselt

namespace Parselt

/-- C4 counterexample: on the input `"\n"` the collapsed output of the
markdown conversion is two consecutive empty lines — the collapse pass
exempts the last index (`i < len(result)-1`), so a trailing blank survives
next to a blank. -/
theorem C4_counterexample :
    htmlToMarkdownLines (cs "\n") = [[], []] ∧
    (htmlToMarkdownLines (cs "\n")).get? 0 = some [] ∧
    (htmlToMarkdownLines (cs "\n")).get? 1 = some [] := by
  refine ⟨by decide, by decide, by decide⟩

/-- C4 (amended): the collapsed output never contains two consecutive empty
lines at an interior position; a pair of adjacent empty lines can occur only
as the final two lines (the last index is exempt from collapsing). -/
theorem C4_no_interior_blanks (html : List Char) (i : Nat)
    (h1 : (htmlToMarkdownLines html).get? i = some [])
    (h2 : (htmlToMarkdownLines html).get? (i + 1) = some []) :
    i + 2 = (htmlToMarkdownLines html).length :=
  cleanAux_no_interior_blanks ((htmlToMarkdownState html).result) none i h1 h2

/-- Witness for `C4_no_interior_blanks` at the input `"\n"`, whose two blank
output lines are indeed the final two. -/
theorem C4_no_interior_blanks_witness :
    (htmlToMarkdownLines (cs "\n")).get? 0 = some [] ∧
    (htmlToMarkdownLines (cs "\n")).get? 1 = some [] ∧
    0 + 2 = (htmlToMarkdownLines (cs "\n")).length :=
  ⟨by decide, by decide,
    C4_no_interior_blanks (cs "\n") 0 (by decide) (by decide)⟩

end Parselt

namespace Parselt

set_option maxHeartbeats 1600000 in
theorem processMDLine_blockCount (st : MDState) (l : List Char) :
    (processMDLine st l).blockCount =
      st.blockCount + (if isCloseLine l && !isOpenLine l then 1 else 0) := by
  obtain ⟨ic, cbc, lang, res, bc⟩ := st
  unfold processMDLine
  by_cases h0 : trimSpace l = []
  · have hCN : isCloseLine l = false := by unfold isCloseLine; rw [h0]; rfl
    rw [if_pos h0,
      show (if isCloseLine l && !isOpenLine l then 1 else 0) = 0 from by
        rw [hCN]; rfl]
    cases ic <;> rfl
  · rw [if_neg h0]
    by_cases hop : containsSub (trimSpace l) (cs "<pre><code") = true
    · rw [if_pos hop]
      have h2 : isOpenLine l = true := hop
      rw [show (if isCloseLine l && !isOpenLine l then 1 else 0) = 0 from by
        rw [h2]; simp only [Bool.not_true, Bool.and_false]; rfl]
      rfl
    · rw [if_neg hop]
      have hONf : isOpenLine l = false := Bool.eq_false_iff.mpr hop
      by_cases hcl : containsSub (trimSpace l) (cs "</code></pre>") = true
      · rw [if_pos hcl]
        have h1 : isCloseLine l = true := hcl
        rw [show (if isCloseLine l && !isOpenLine l then 1 else 0) = 1 from by
          rw [h1, hONf]; rfl]
      · rw [if_neg hcl]
        have hCf : isCloseLine l = false := Bool.eq_false_iff.mpr hcl
        rw [show (if isCloseLine l && !isOpenLine l then 1 else 0) = 0 from by
          rw [hCf]; rfl]
        cases ic
        case neg.true => rfl
        case neg.false =>
          by_cases hh1 : containsSub (trimSpace l) (cs "<h1") = true
          · rw [if_neg Bool.false_ne_true, if_pos hh1]
            cases findTagContent (cs "<h1") (cs "</h1>") (trimSpace l) <;> rfl
          · rw [if_neg Bool.false_ne_true, if_neg hh1]
            by_cases hh2 : containsSub (trimSpace l) (cs "<h2") = true
            · rw [if_pos hh2]
              cases findTagContent (cs "<h2") (cs "</h2>") (trimSpace l) <;> rfl
            · rw [if_neg hh2]
              by_cases hh3 : containsSub (trimSpace l) (cs "<h3") = true
              · rw [if_pos hh3]
                cases findTagContent (cs "<h3") (cs "</h3>") (trimSpace l) <;> rfl
              · rw [if_neg hh3]
                by_cases hh4 : containsSub (trimSpace l) (cs "<h4") = true
                · rw [if_pos hh4]
                  cases findTagContent (cs "<h4") (cs "</h4>") (trimSpace l) <;> rfl
                · rw [if_neg hh4]
                  by_cases hol : (containsSub (trimSpace l) (cs "<ol>")
                      || containsSub (trimSpace l) (cs "</ol>")) = true
                  · rw [if_pos hol]; rfl
                  · rw [if_neg hol]
                    by_cases hul : (containsSub (trimSpace l) (cs "<ul>")
                        || containsSub (trimSpace l) (cs "</ul>")) = true
                    · rw [if_pos hul]; rfl
                    · rw [if_neg hul]
                      by_cases hli : containsSub (trimSpace l) (cs "<li>") = true
                      · rw [if_pos hli]
                        generalize trimSpace (removeTags (processInlineFormattingMD
                          (replaceAll (replaceAll (trimSpace l) (cs "<li>") [])
                            (cs "</li>") []))) = C
                        by_cases hc : C ≠ []
                        · rw [if_pos hc]
                          cases findNum C <;> rfl
                        · rw [if_neg hc]; rfl
                      · rw [if_neg hli]
                        by_cases hp : containsSub (trimSpace l) (cs "<p>") = true
                        · rw [if_pos hp]
                          generalize trimSpace (removeTags (processInlineFormattingMD
                            (replaceAll (replaceAll (trimSpace l) (cs "<p>") [])
                              (cs "</p>") []))) = C
                          by_cases hc : C ≠ []
                          · rw [if_pos hc]; rfl
                          · rw [if_neg hc]; rfl
                        · rw [if_neg hp]
                          by_cases hb : containsSub (trimSpace l) (cs "<blockquote>") = true
                          · rw [if_pos hb]
                            generalize trimSpace (removeTags (processInlineFormattingMD
                              (replaceAll (replaceAll (trimSpace l) (cs "<blockquote>") [])
                                (cs "</blockquote>") []))) = C
                            by_cases hc : C ≠ []
                            · rw [if_pos hc]; rfl
                            · rw [if_neg hc]; rfl
                          · rw [if_neg hb]
                            generalize trimSpace (removeTags
                              (processInlineFormattingMD (trimSpace l))) = C
                            by_cases hc : C ≠ []
                            · rw [if_pos hc]; rfl
                            · rw [if_neg hc]; rfl

end Parselt

namespace Parselt

theorem processTermRest_blockCount (aw : Int) (st : TermState)
    (orig line : List Char) :
    (processTermRest aw st orig line).blockCount = st.blockCount := by
  obtain ⟨ic, cbc, lang, fm, bc⟩ := st
  unfold processTermRest
  by_cases hh1 : matchesOpenTag (cs "<h1") line = true
  · rw [if_pos hh1]
    by_cases hc : ExtractHeaderContent line 1 ≠ []
    · rw [if_pos hc]
    · rw [if_neg hc]
  · rw [if_neg hh1]
    by_cases hh2 : matchesOpenTag (cs "<h2") line = true
    · rw [if_pos hh2]
      by_cases hc : ExtractHeaderContent line 2 ≠ []
      · rw [if_pos hc]
      · rw [if_neg hc]
    · rw [if_neg hh2]
      by_cases hh3 : matchesOpenTag (cs "<h3") line = true
      · rw [if_pos hh3]
        by_cases hc : ExtractHeaderContent line 3 ≠ []
        · rw [if_pos hc]
        · rw [if_neg hc]
      · rw [if_neg hh3]
        by_cases hh4 : matchesOpenTag (cs "<h4") line = true
        · rw [if_pos hh4]
          by_cases hc : ExtractHeaderContent line 4 ≠ []
          · rw [if_pos hc]
          · rw [if_neg hc]
        · rw [if_neg hh4]
          by_cases hol : (containsSub line (cs "<ol>")
              || containsSub line (cs "</ol>")) = true
          · rw [if_pos hol]
          · rw [if_neg hol]
            by_cases hul : (containsSub line (cs "<ul>")
                || containsSub line (cs "</ul>")) = true
            · rw [if_pos hul]
            · rw [if_neg hul]
              by_cases hli : containsSub line (cs "<li>") = true
              · rw [if_pos hli]
                generalize trimSpace (removeTags (processInlineFormattingTerm
                  (replaceAll (replaceAll line (cs "<li>") [])
                    (cs "</li>") []))) = C
                by_cases hc : C ≠ []
                · rw [if_pos hc]
                  by_cases hnum : (containsSub orig (cs "1.")
                      || containsSub orig (cs "2.")) = true
                  · rw [if_pos hnum]
                    cases findNum C <;> rfl
                  · rw [if_neg hnum]
                · rw [if_neg hc]
              · rw [if_neg hli]
                by_cases hp : containsSub line (cs "<p>") = true
                · rw [if_pos hp]
                  generalize trimSpace (removeTags (processInlineFormattingTerm
                    (replaceAll (replaceAll line (cs "<p>") [])
                      (cs "</p>") []))) = C
                  by_cases hc : C ≠ []
                  · rw [if_pos hc]
                  · rw [if_neg hc]
                · rw [if_neg hp]
                  by_cases hb : containsSub line (cs "<blockquote>") = true
                  · rw [if_pos hb]
                    generalize trimSpace (removeTags (processInlineFormattingTerm
                      (replaceAll (replaceAll line (cs "<blockquote>") [])
                        (cs "</blockquote>") []))) = C
                    by_cases hc : C ≠ []
                    · rw [if_pos hc]
                    · rw [if_neg hc]
                  · rw [if_neg hb]
                    generalize trimSpace (removeTags
                      (processInlineFormattingTerm line)) = C
                    by_cases hc : C ≠ []
                    · rw [if_pos hc]
                    · rw [if_neg hc]

end Parselt

namespace Parselt

theorem tdiv_two_le_self {a : Int} (h : 0 ≤ a) : Int.tdiv a 2 ≤ a := by
  unfold Int.tdiv
  match a, h with
  | Int.ofNat n, _ =>
    simp only []
    norm_num
    omega

theorem findBreakLoop_le {line : List Char} {halfW mw : Int} :
    ∀ (fuel : Nat) (i : Int), i ≤ mw - 1 → halfW ≤ mw →
      findBreakLoop line halfW fuel i ≤ mw := by
  intro fuel
  induction fuel with
  | zero => intro i _ h2; simp only [findBreakLoop]; exact h2
  | succ f ih =>
    intro i h1 h2
    simp only [findBreakLoop]
    by_cases hgt : i > halfW
    · rw [if_pos hgt]
      by_cases hlen : i ≥ (line.length : Int)
      · rw [if_pos hlen]
        exact ih (i - 1) (by omega) h2
      · rw [if_neg hlen]
        by_cases hbk : isBreakChar (line.getD i.toNat ' ') = true
        · rw [if_pos hbk]
          by_cases hsp : line.getD i.toNat ' ' = ' '
          · rw [if_pos hsp]; omega
          · rw [if_neg hsp]; omega
        · rw [if_neg hbk]
          exact ih (i - 1) (by omega) h2
    · rw [if_neg hgt]
      exact h2

theorem findCodeBreakPoint_le {line : List Char} {mw : Int} (h0 : 0 ≤ mw)
    (h : mw < (line.length : Int)) : findCodeBreakPoint line mw ≤ mw := by
  unfold findCodeBreakPoint
  rw [if_neg (by omega)]
  exact findBreakLoop_le _ (mw - 1) (by omega) (tdiv_two_le_self h0)

theorem wrapLoopF_isSome (leading : Nat) :
    ∀ (fuel : Nat) (remaining : List Char) (mw : Int) (lines : List (List Char)),
      3 ≤ mw → mw.toNat < fuel →
      (wrapLoopF leading (List.replicate (leading + 2) ' ')
        fuel remaining mw lines).isSome = true := by
  intro fuel
  induction fuel with
  | zero => intro _ mw _ h3 hf; omega
  | succ f ih =>
    intro remaining mw lines h3 hf
    simp only [wrapLoopF]
    by_cases hlen : (remaining.length : Int) > mw
    · rw [if_pos hlen]
      have hcilen : (List.replicate (leading + 2) ' ').length = leading + 2 :=
        List.length_replicate _ _
      by_cases hbp : findCodeBreakPoint remaining mw ≤ (leading : Int)
      · rw [if_pos hbp]
        rw [if_neg (by omega)]
        by_cases hfl : mw - ((List.replicate (leading + 2) ' ').length : Int) < 20
        · rw [if_pos hfl]; rfl
        · rw [if_neg hfl]
          refine ih _ _ _ (by rw [hcilen] at hfl ⊢; omega) ?_
          rw [hcilen] at hfl ⊢
          omega
      · rw [if_neg hbp]
        have hle : findCodeBreakPoint remaining mw ≤ mw :=
          findCodeBreakPoint_le (by omega) (by omega)
        rw [if_neg (by omega)]
        by_cases hfl : mw - ((List.replicate (leading + 2) ' ').length : Int) < 20
        · rw [if_pos hfl]; rfl
        · rw [if_neg hfl]
          refine ih _ _ _ (by rw [hcilen] at hfl ⊢; omega) ?_
          rw [hcilen] at hfl ⊢
          omega
    · rw [if_neg hlen]; rfl

/-- `wrapCodeLine` evaluates without a slice panic for every width of at
least 3 columns. -/
theorem wrapCodeLine_total (line : List Char) (mw : Int) (h : 3 ≤ mw) :
    (wrapCodeLine line mw).isSome = true := by
  unfold wrapCodeLine
  by_cases hlen : (line.length : Int) ≤ mw
  · rw [if_pos hlen]; rfl
  · rw [if_neg hlen]
    exact wrapLoopF_isSome (goLeadingSpaces line) _ line mw [] h (by omega)

theorem wrapCodeBlockGo_isSome (mw : Int) (h : 20 < mw) :
    ∀ cls : List (List Char), (wrapCodeBlockGo mw cls).isSome = true := by
  intro cls
  induction cls with
  | nil => rfl
  | cons l ls ih =>
    simp only [wrapCodeBlockGo]
    by_cases hlen : (l.length : Int) ≤ mw
    · rw [if_pos hlen]
      cases hgo : wrapCodeBlockGo mw ls with
      | none => rw [hgo] at ih; simp at ih
      | some rest => simp
    · rw [if_neg hlen]
      cases hwl : wrapCodeLine l mw with
      | none =>
        have := wrapCodeLine_total l mw (by omega)
        rw [hwl] at this
        simp at this
      | some ws =>
        cases hgo : wrapCodeBlockGo mw ls with
        | none => rw [hgo] at ih; simp at ih
        | some rest => simp

theorem wrapCodeBlock_isSome (cls : List (List Char)) (mw : Int) :
    (wrapCodeBlock cls mw).isSome = true := by
  unfold wrapCodeBlock
  by_cases hle : mw ≤ 20
  · rw [if_pos hle]; rfl
  · rw [if_neg hle]
    have := wrapCodeBlockGo_isSome mw (by omega) cls
    cases hgo : wrapCodeBlockGo mw cls with
    | none => rw [hgo] at this; simp at this
    | some ws => simp

end Parselt

namespace Parselt

theorem processTermLine_isSome (aw : Int) (st : TermState) (l : List Char) :
    (processTermLine aw st l).isSome = true := by
  unfold processTermLine
  by_cases h0 : trimSpace l = []
  · rw [if_pos h0]; rfl
  · rw [if_neg h0]
    by_cases hop : containsSub (trimSpace l) (cs "<pre><code") = true
    · rw [if_pos hop]; rfl
    · rw [if_neg hop]
      by_cases hcl : containsSub (trimSpace l) (cs "</code></pre>") = true
      · rw [if_pos hcl]
        dsimp only
        have hwb := wrapCodeBlock_isSome
          (if trimSpace (removeTags (replaceAll (trimSpace l)
              (cs "</code></pre>") [])) ≠ []
           then st.codeBlockContent ++
             [removeTags (replaceAll (trimSpace l) (cs "</code></pre>") [])]
           else st.codeBlockContent) (aw - 6)
        cases hgo : wrapCodeBlock
            (if trimSpace (removeTags (replaceAll (trimSpace l)
                (cs "</code></pre>") [])) ≠ []
             then st.codeBlockContent ++
               [removeTags (replaceAll (trimSpace l) (cs "</code></pre>") [])]
             else st.codeBlockContent) (aw - 6) with
        | none => rw [hgo] at hwb; simp at hwb
        | some cc => rfl
      · rw [if_neg hcl]
        by_cases hic : st.inCodeBlock = true
        · rw [if_pos hic]; rfl
        · rw [if_neg hic]; rfl

theorem processTermLine_blockCount (aw : Int) (st : TermState) (l : List Char)
    {st' : TermState} (h : processTermLine aw st l = some st') :
    st'.blockCount =
      st.blockCount + (if isCloseLine l && !isOpenLine l then 1 else 0) := by
  unfold processTermLine at h
  by_cases h0 : trimSpace l = []
  · have hCN : isCloseLine l = false := by unfold isCloseLine; rw [h0]; rfl
    rw [show (if isCloseLine l && !isOpenLine l then 1 else 0) = 0 from by
      rw [hCN]; rfl]
    rw [if_pos h0] at h
    injection h with h
    subst h
    by_cases hic : st.inCodeBlock = true
    · rw [if_pos hic]; rfl
    · rw [if_neg hic]; rfl
  · rw [if_neg h0] at h
    by_cases hop : containsSub (trimSpace l) (cs "<pre><code") = true
    · rw [if_pos hop] at h
      have h2 : isOpenLine l = true := hop
      rw [show (if isCloseLine l && !isOpenLine l then 1 else 0) = 0 from by
        rw [h2]; simp only [Bool.not_true, Bool.and_false]; rfl]
      injection h with h
      subst h
      rfl
    · rw [if_neg hop] at h
      have hONf : isOpenLine l = false := Bool.eq_false_iff.mpr hop
      by_cases hcl : containsSub (trimSpace l) (cs "</code></pre>") = true
      · rw [if_pos hcl] at h
        dsimp only at h
        have h1 : isCloseLine l = true := hcl
        rw [show (if isCloseLine l && !isOpenLine l then 1 else 0) = 1 from by
          rw [h1, hONf]; rfl]
        cases hgo : wrapCodeBlock
            (if trimSpace (removeTags (replaceAll (trimSpace l)
                (cs "</code></pre>") [])) ≠ []
             then st.codeBlockContent ++
               [removeTags (replaceAll (trimSpace l) (cs "</code></pre>") [])]
             else st.codeBlockContent) (aw - 6) with
        | none => rw [hgo] at h; exact absurd h (by simp)
        | some cc =>
          rw [hgo] at h
          injection h with h
          subst h
          rfl
      · rw [if_neg hcl] at h
        have hCf : isCloseLine l = false := Bool.eq_false_iff.mpr hcl
        rw [show (if isCloseLine l && !isOpenLine l then 1 else 0) = 0 from by
          rw [hCf]; rfl]
        by_cases hic : st.inCodeBlock = true
        · rw [if_pos hic] at h
          injection h with h
          subst h
          rfl
        · rw [if_neg hic] at h
          injection h with h
          subst h
          rw [processTermRest_blockCount]
          omega

theorem runTermLines_isSome (aw : Int) :
    ∀ (lines : List (List Char)) (st : TermState),
      (runTermLines aw st lines).isSome = true := by
  intro lines
  induction lines with
  | nil => intro st; rfl
  | cons l ls ih =>
    intro st
    simp only [runTermLines]
    have := processTermLine_isSome aw st l
    cases hp : processTermLine aw st l with
    | none => rw [hp] at this; simp at this
    | some st' => exact ih st'

theorem runTermLines_blockCount (aw : Int) :
    ∀ (lines : List (List Char)) (st st' : TermState),
      runTermLines aw st lines = some st' →
      st'.blockCount = st.blockCount +
        lines.countP (fun l => isCloseLine l && !isOpenLine l) := by
  intro lines
  induction lines with
  | nil =>
    intro st st' h
    injection h with h
    subst h
    simp [List.countP_nil]
  | cons l ls ih =>
    intro st st' h
    simp only [runTermLines] at h
    cases hp : processTermLine aw st l with
    | none => rw [hp] at h; exact absurd h (by simp)
    | some st1 =>
      rw [hp] at h
      have h1 := processTermLine_blockCount aw st l hp
      have h2 := ih st1 st' h
      rw [List.countP_cons]
      by_cases hpred : (isCloseLine l && !isOpenLine l) = true
      · rw [hpred] at h1 ⊢
        simp at h1 ⊢
        omega
      · have hf : (isCloseLine l && !isOpenLine l) = false :=
          Bool.eq_false_iff.mpr hpred
        rw [hf] at h1 ⊢
        simp at h1 ⊢
        omega

end Parselt

namespace Parselt

theorem foldMD_blockCount :
    ∀ (lines : List (List Char)) (st : MDState),
      (lines.foldl processMDLine st).blockCount =
        st.blockCount + lines.countP (fun l => isCloseLine l && !isOpenLine l) := by
  intro lines
  induction lines with
  | nil => intro st; simp
  | cons l ls ih =>
    intro st
    rw [List.foldl_cons, ih, processMDLine_blockCount, List.countP_cons]
    by_cases hpred : (isCloseLine l && !isOpenLine l) = true
    · rw [hpred]
      simp
      try omega
    · have hf : (isCloseLine l && !isOpenLine l) = false :=
        Bool.eq_false_iff.mpr hpred
      rw [hf]
      simp
      try omega

/-- Inside an open fence, lines bearing neither marker are absorbed: they are
appended to the code accumulator (blank lines as empty strings, other lines
tag-stripped), the emitted output does not change, and the block stays
open. -/
theorem foldMD_absorb :
    ∀ (rest : List (List Char)) (st : MDState), st.inCodeBlock = true →
      (∀ l ∈ rest, isOpenLine l = false ∧ isCloseLine l = false) →
      (rest.foldl processMDLine st).result = st.result ∧
      (rest.foldl processMDLine st).inCodeBlock = true ∧
      (rest.foldl processMDLine st).codeBlockContent =
        st.codeBlockContent ++ rest.map
          (fun l => if trimSpace l = [] then [] else removeTags (trimSpace l)) := by
  intro rest
  induction rest with
  | nil => intro st hic _; simp [hic]
  | cons l ls ih =>
    intro st hic hm
    obtain ⟨hof, hcf⟩ := hm l (List.mem_cons_self _ _)
    have hstep : processMDLine st l =
        { st with codeBlockContent := st.codeBlockContent ++
            [if trimSpace l = [] then [] else removeTags (trimSpace l)] } := by
      unfold processMDLine
      by_cases h0 : trimSpace l = []
      · rw [if_pos h0, if_pos hic, if_pos h0]
      · rw [if_neg h0]
        have hof' : ¬ containsSub (trimSpace l) (cs "<pre><code") = true := by
          unfold isOpenLine at hof
          exact fun hh => by rw [hof] at hh; exact Bool.false_ne_true hh
        have hcf' : ¬ containsSub (trimSpace l) (cs "</code></pre>") = true := by
          unfold isCloseLine at hcf
          exact fun hh => by rw [hcf] at hh; exact Bool.false_ne_true hh
        rw [if_neg hof', if_neg hcf', if_pos hic, if_neg h0]
    rw [List.foldl_cons, hstep]
    have hms : ∀ x ∈ ls, isOpenLine x = false ∧ isCloseLine x = false :=
      fun x hx => hm x (List.mem_cons_of_mem _ hx)
    obtain ⟨h1, h2, h3⟩ := ih ({ st with codeBlockContent := st.codeBlockContent ++
        [if trimSpace l = [] then [] else removeTags (trimSpace l)] }) hic hms
    refine ⟨h1, h2, ?_⟩
    rw [h3]
    simp

end Parselt

namespace Parselt

/-- C5 counterexample: the single-line input `"<pre><code>x</code></pre>"`
has the opening marker on one line and the closing marker on one line (the
same line), yet neither conversion emits a code block — the opening branch is
checked first and swallows the line, leaving the fence open. -/
theorem C5_counterexample :
    (splitLines (UnescapeHTML (cs "<pre><code>x</code></pre>"))).countP
      (fun l => isOpenLine l) = 1 ∧
    (splitLines (UnescapeHTML (cs "<pre><code>x</code></pre>"))).countP
      (fun l => isCloseLine l) = 1 ∧
    (htmlToMarkdownState (cs "<pre><code>x</code></pre>")).blockCount = 0 ∧
    htmlToTerminalState 100 (cs "<pre><code>x</code></pre>") =
      some ⟨true, [cs "x"], [], [], 0⟩ :=
  ⟨by decide, by decide, by decide, by decide⟩

/-- C5 (amended): when no input line carries both fence markers and the
opening and closing markers occur on equally many lines, both conversions
emit exactly that many code blocks; the terminal conversion never panics on
any input, and an unterminated fence is harmless — lines after the opening
marker are absorbed into the open block without reaching the output. -/
theorem C5_fence_balance :
    (∀ (html : List Char) (n : Nat) (w : Int),
      (splitLines (UnescapeHTML html)).countP (fun l => isOpenLine l) = n →
      (splitLines (UnescapeHTML html)).countP (fun l => isCloseLine l) = n →
      (∀ l ∈ splitLines (UnescapeHTML html),
        ¬(isOpenLine l = true ∧ isCloseLine l = true)) →
      (htmlToMarkdownState html).blockCount = n ∧
      ∃ st, htmlToTerminalState w html = some st ∧ st.blockCount = n)
  ∧ (∀ (w : Int) (html : List Char), (htmlToTerminalState w html).isSome = true)
  ∧ (∀ (rest : List (List Char)) (st : MDState), st.inCodeBlock = true →
      (∀ l ∈ rest, isOpenLine l = false ∧ isCloseLine l = false) →
      (rest.foldl processMDLine st).result = st.result ∧
      (rest.foldl processMDLine st).inCodeBlock = true) := by
  refine ⟨?_, ?_, ?_⟩
  · intro html n w hopen hclose hdual
    have hcong : (splitLines (UnescapeHTML html)).countP
        (fun l => isCloseLine l && !isOpenLine l) =
        (splitLines (UnescapeHTML html)).countP (fun l => isCloseLine l) := by
      apply List.countP_congr
      intro l hl
      by_cases hc : isCloseLine l = true
      · have ho : isOpenLine l = false := by
          by_cases ho' : isOpenLine l = true
          · exact absurd ⟨ho', hc⟩ (hdual l hl)
          · exact Bool.eq_false_iff.mpr ho'
        rw [hc, ho]
        rfl
      · have hc' : isCloseLine l = false := Bool.eq_false_iff.mpr hc
        rw [hc']
        rfl
    constructor
    · unfold htmlToMarkdownState
      rw [foldMD_blockCount, hcong, hclose]
      show 0 + n = n
      omega
    · have hsome := runTermLines_isSome (availableWidth w)
        (splitLines (UnescapeHTML html)) initTermState
      cases hrun : runTermLines (availableWidth w) initTermState
          (splitLines (UnescapeHTML html)) with
      | none => rw [hrun] at hsome; simp at hsome
      | some st =>
        refine ⟨st, hrun, ?_⟩
        have hbc := runTermLines_blockCount (availableWidth w) _ _ _ hrun
        rw [hcong, hclose] at hbc
        rw [hbc]
        show 0 + n = n
        omega
  · intro w html
    exact runTermLines_isSome (availableWidth w) _ _
  · intro rest st hic hm
    obtain ⟨h1, h2, -⟩ := foldMD_absorb rest st hic hm
    exact ⟨h1, h2⟩

/-- Witness for `C5_fence_balance` at a well-formed one-block input and at a
concrete open fence state. -/
theorem C5_fence_balance_witness :
    ((htmlToMarkdownState
        (cs "<pre><code class=\"language-go\">\nx\n</code></pre>")).blockCount = 1 ∧
      ∃ st, htmlToTerminalState 100
          (cs "<pre><code class=\"language-go\">\nx\n</code></pre>") = some st ∧
        st.blockCount = 1) ∧
    (([cs "x"].foldl processMDLine ⟨true, [], [], [], 0⟩).result =
        (⟨true, [], [], [], 0⟩ : MDState).result ∧
      ([cs "x"].foldl processMDLine ⟨true, [], [], [], 0⟩).inCodeBlock = true) :=
  ⟨C5_fence_balance.1 (cs "<pre><code class=\"language-go\">\nx\n</code></pre>")
      1 100 (by decide) (by decide) (by decide),
    C5_fence_balance.2.2 [cs "x"] ⟨true, [], [], [], 0⟩ rfl (by decide)⟩

end Parselt

namespace Parselt

theorem tdiv_two_nonneg {a : Int} (h : 0 ≤ a) : 0 ≤ Int.tdiv a 2 := by
  obtain ⟨n, rfl⟩ := Int.eq_ofNat_of_zero_le h
  show 0 ≤ Int.ofNat (n / 2)
  exact Int.ofNat_nonneg _

/-- C8 counterexample: at target width 1 the line `"xx"` drives the wrapper
into the forced-break branch with break position `1 - 3 = -2`, an
out-of-range slice — `wrapCodeLine` panics in Go, modelled as `none`. -/
theorem C8_counterexample : wrapCodeLine (cs "xx") 1 = none := by decide

/-- C8 (amended): `wrapCodeLine` terminates on every input (its loop is a
total function of a fuel bounded by the shrinking width), and it evaluates
without a slice panic for every target width of at least 3 columns; widths
below 3 can panic. -/
theorem C8_wrapCodeLine_total (line : List Char) (maxWidth : Int)
    (h : 3 ≤ maxWidth) : (wrapCodeLine line maxWidth).isSome = true :=
  wrapCodeLine_total line maxWidth h

/-- Witness for `C8_wrapCodeLine_total` at width 3. -/
theorem C8_wrapCodeLine_total_witness :
    (wrapCodeLine (cs "xx") 3).isSome = true :=
  C8_wrapCodeLine_total (cs "xx") 3 (by decide)

theorem findBreakLoop_all_miss {line : List Char} {halfW : Int}
    (hW : 0 ≤ halfW)
    (hmiss : ∀ i : Nat, halfW < (i : Int) → i < line.length →
      isBreakChar (line.getD i ' ') = false) :
    ∀ (fuel : Nat) (i : Int), findBreakLoop line halfW fuel i = halfW := by
  intro fuel
  induction fuel with
  | zero => intro i; rfl
  | succ f ih =>
    intro i
    simp only [findBreakLoop]
    by_cases hgt : i > halfW
    · rw [if_pos hgt]
      by_cases hlen : i ≥ (line.length : Int)
      · rw [if_pos hlen]
        exact ih (i - 1)
      · rw [if_neg hlen]
        have hi0 : 0 ≤ i := by omega
        have hcast : ((i.toNat : Nat) : Int) = i := Int.toNat_of_nonneg hi0
        have hmiss' : isBreakChar (line.getD i.toNat ' ') = false := by
          apply hmiss i.toNat
          · omega
          · omega
        rw [if_neg (by rw [hmiss']; exact Bool.false_ne_true)]
        exact ih (i - 1)
    · rw [if_neg hgt]

set_option maxRecDepth 8000 in
/-- C3 (amended): (1) when no break character occurs at the probed positions
(strictly between `maxWidth/2` and `maxWidth`, inside the line),
`findCodeBreakPoint` returns the midpoint `maxWidth/2` — the `"..."` splice
at `width − 3` happens only when the returned break point falls inside the
leading indentation.  (2) For the scenario of 200 `x` characters at width
40: the wrapper emits 13 lines with no `"..."` anywhere; the first 11 lines
are at most 40 columns; breaks are midpoint breaks; once the shrinking width
falls below the 20-column floor, the 57-column remainder is emitted twice,
and dropping the duplicate and the injected continuation indents
reconstructs the original 200 characters. -/
theorem C3_midpoint_break :
    (∀ (line : List Char) (maxWidth : Int), 0 ≤ maxWidth →
      maxWidth < (line.length : Int) →
      (∀ i : Nat, Int.tdiv maxWidth 2 < (i : Int) → i < line.length →
        isBreakChar (line.getD i ' ') = false) →
      findCodeBreakPoint line maxWidth = Int.tdiv maxWidth 2)
  ∧ ((wrapCodeLine (List.replicate 200 'x') 40).isSome = true
      ∧ ((wrapCodeLine (List.replicate 200 'x') 40).getD []).length = 13
      ∧ (((wrapCodeLine (List.replicate 200 'x') 40).getD []).take 11).all
          (fun l => decide (l.length ≤ 40)) = true
      ∧ ((wrapCodeLine (List.replicate 200 'x') 40).getD []).get? 11 =
          ((wrapCodeLine (List.replicate 200 'x') 40).getD []).get? 12
      ∧ (((wrapCodeLine (List.replicate 200 'x') 40).getD []).getD 12 []).length = 57
      ∧ stripSpaces (((wrapCodeLine (List.replicate 200 'x') 40).getD
          []).dropLast.flatten) = List.replicate 200 'x'
      ∧ ((wrapCodeLine (List.replicate 200 'x') 40).getD []).all
          (fun l => decide ('.' ∉ l)) = true) := by
  constructor
  · intro line maxWidth h0 hlen hmiss
    unfold findCodeBreakPoint
    rw [if_neg (by omega)]
    exact findBreakLoop_all_miss (tdiv_two_nonneg h0) hmiss _ _
  · refine ⟨by decide, by decide, by decide, by decide, by decide, by decide,
      by decide⟩

/-- Witness for the quantified part of `C3_midpoint_break`: on `"abcdef"` at
width 4 no probed position holds a break character, and the returned break
point is the midpoint 2. -/
theorem C3_midpoint_break_witness :
    findCodeBreakPoint (cs "abcdef") 4 = Int.tdiv 4 2 :=
  C3_midpoint_break.1 (cs "abcdef") 4 (by decide) (by decide)
    (by
      intro i h1 h2
      rw [show (cs "abcdef").length = 6 from rfl] at h2
      rw [show Int.tdiv 4 2 = 2 from rfl] at h1
      have h1' : 2 < i := by exact_mod_cast h1
      interval_cases i <;> decide)

set_option maxRecDepth 8000 in
/-- C3 counterexample: for the 200-`x` line at width 40 the claim's forced
`"..."` break does not happen — no output line contains a dot at all — and
not every output line fits in 40 columns. -/
theorem C3_counterexample :
    ((wrapCodeLine (List.replicate 200 'x') 40).getD []).all
      (fun l => decide ('.' ∉ l)) = true ∧
    ((wrapCodeLine (List.replicate 200 'x') 40).getD []).all
      (fun l => decide (l.length ≤ 40)) = false := by
  exact ⟨by decide, by decide⟩

end Parselt

namespace Parselt

theorem stripSpaces_append (a b : List Char) :
    stripSpaces (a ++ b) = stripSpaces a ++ stripSpaces b := by
  simp [stripSpaces]

theorem stripSpaces_replicate (n : Nat) :
    stripSpaces (List.replicate n ' ') = [] := by
  induction n with
  | zero => rfl
  | succ m ih => simpa [List.replicate_succ, stripSpaces] using ih

theorem splitGo_nil (cur : List Char) (inCode : Bool) :
    splitGo cur inCode [] =
      if cur ≠ [] then [(⟨cur, inCode⟩ : textSegment)] else [] := rfl

theorem splitGo_tick_true (cur rest : List Char) :
    splitGo cur true ('`' :: rest) =
      (⟨cur ++ ['`'], true⟩ : textSegment) :: splitGo [] false rest := rfl

theorem splitGo_tick_false (cur rest : List Char) :
    splitGo cur false ('`' :: rest) =
      (if cur ≠ [] then [(⟨cur, false⟩ : textSegment)] else [])
        ++ splitGo ['`'] true rest := rfl

theorem splitGo_space_false (cur rest : List Char) :
    splitGo cur false (' ' :: rest) =
      (if cur ≠ [] then [(⟨cur, false⟩ : textSegment)] else [])
        ++ splitGo [] false rest := rfl

theorem splitGo_other {c : Char} {inCode : Bool} (cur rest : List Char)
    (h1 : c ≠ '`') (h2 : ¬(c = ' ' ∧ inCode = false)) :
    splitGo cur inCode (c :: rest) = splitGo (cur ++ [c]) inCode rest := by
  show (if c = '`' then _ else if c = ' ' ∧ inCode = false then _ else
    splitGo (cur ++ [c]) inCode rest) = _
  rw [if_neg h1, if_neg h2]

/-- The text of the segments, concatenated, is the input with the
segment-delimiting spaces removed: up to spaces nothing is lost. -/
theorem splitGo_strip :
    ∀ (s cur : List Char) (inCode : Bool),
      stripSpaces (((splitGo cur inCode s).map textSegment.text).flatten) =
        stripSpaces (cur ++ s) := by
  intro s
  induction s with
  | nil =>
    intro cur inCode
    rw [splitGo_nil]
    by_cases hc : cur ≠ []
    · rw [if_pos hc]; simp
    · rw [if_neg hc]
      simp only [ne_eq, not_not] at hc
      simp [hc, stripSpaces]
  | cons c rest ih =>
    intro cur inCode
    by_cases hbt : c = '`'
    · subst hbt
      cases inCode with
      | true =>
        rw [splitGo_tick_true]
        simp only [List.map_cons, List.flatten_cons]
        rw [stripSpaces_append, ih [] false]
        simp [stripSpaces_append, stripSpaces]
      | false =>
        rw [splitGo_tick_false]
        by_cases hc : cur ≠ []
        · rw [if_pos hc]
          simp only [List.map_append, List.flatten_append, List.map_cons,
            List.flatten_cons]
          rw [stripSpaces_append, ih ['`'] true]
          simp [stripSpaces_append, stripSpaces]
        · rw [if_neg hc]
          simp only [ne_eq, not_not] at hc
          subst hc
          simp only [List.nil_append]
          rw [ih ['`'] true]
          simp [stripSpaces_append, stripSpaces]
    · by_cases hsp : c = ' ' ∧ inCode = false
      · obtain ⟨rfl, rfl⟩ := hsp
        rw [splitGo_space_false]
        by_cases hc : cur ≠ []
        · rw [if_pos hc]
          simp only [List.map_append, List.flatten_append, List.map_cons,
            List.flatten_cons]
          rw [stripSpaces_append, ih [] false]
          simp [stripSpaces_append, stripSpaces]
        · rw [if_neg hc]
          simp only [ne_eq, not_not] at hc
          subst hc
          simp only [List.nil_append]
          rw [ih [] false]
          simp [stripSpaces_append, stripSpaces]
      · rw [splitGo_other cur rest hbt hsp, ih (cur ++ [c]) inCode]
        simp [stripSpaces_append]

end Parselt

namespace Parselt

/-- One step of the segment-packing loop: the state either extends the
current line with the segment (with or without a separating space), or
flushes the current line and restarts from the segment, or emits the
segment alone; in every case the segment text enters the state whole. -/
theorem wrapInlineLoop_cons_cases (ind : List Char) (w : Int) (seg : textSegment)
    (segs : List textSegment) (i : Nat) (lines : List (List Char))
    (cur : List Char) :
    ∃ lines' cur',
      wrapInlineLoop ind w (seg :: segs) i lines cur =
        wrapInlineLoop ind w segs (i + 1) lines' cur' ∧
      ((lines' = lines ∧ (cur' = seg.text ∧ cur = [] ∨ cur' = cur ++ seg.text ∨
          cur' = cur ++ ' ' :: seg.text)) ∨
       (∃ pre, (pre = [] ∨ pre = ind) ∧ lines' = lines ++ [pre ++ cur] ∧
          cur' = seg.text ∧ cur ≠ []) ∨
       (∃ pre, (pre = [] ∨ pre = ind) ∧ lines' = lines ++ [pre ++ seg.text] ∧
          cur' = [] ∧ cur = [])) := by
  by_cases hcur : cur = []
  · subst hcur
    simp only [wrapInlineLoop, ne_eq, not_true_eq_false, false_and, if_false,
      List.nil_append, or_true, if_true]
    split_ifs with h
    · exact ⟨lines, seg.text, rfl, Or.inl ⟨rfl, Or.inl ⟨rfl, trivial⟩⟩⟩
    · exact ⟨lines ++ [seg.text], [], rfl,
        Or.inr (Or.inr ⟨[], Or.inl rfl, rfl, rfl, trivial⟩)⟩
  · simp only [wrapInlineLoop, ne_eq, hcur, not_false_iff, true_and, if_false,
      or_false, if_true]
    generalize hb : ((cs "`").isPrefixOf seg.text && (cs "`").isSuffixOf seg.text) = b
    cases b with
    | true =>
      refine ⟨lines, cur ++ seg.text, ?_,
        Or.inl ⟨rfl, Or.inr (Or.inl rfl)⟩⟩
      rw [if_pos (Or.inr rfl), if_pos rfl]
    | false =>
      simp only [Bool.false_eq_true, if_false, or_false, eq_self_iff_true, if_true]
      split_ifs <;>
        first
          | exact ⟨lines, cur ++ ' ' :: seg.text, rfl,
              Or.inl ⟨rfl, Or.inr (Or.inr rfl)⟩⟩
          | exact ⟨lines ++ [[] ++ cur], seg.text, rfl,
              Or.inr (Or.inl ⟨[], Or.inl rfl, rfl, rfl, trivial⟩)⟩
          | exact ⟨lines ++ [ind ++ cur], seg.text, rfl,
              Or.inr (Or.inl ⟨ind, Or.inr rfl, rfl, rfl, trivial⟩)⟩

end Parselt

namespace Parselt

theorem stripSpaces_space_cons (l : List Char) :
    stripSpaces (' ' :: l) = stripSpaces l := by
  simp [stripSpaces]

/-- The segment-packing loop followed by the flush preserves the non-space
characters of the state in order: separators and indents contribute only
spaces. -/
theorem wrapInline_strip (ind : List Char) (w : Int) (hind : stripSpaces ind = []) :
    ∀ (segs : List textSegment) (i : Nat) (lines : List (List Char)) (cur : List Char),
      stripSpaces (wrapFlush ind (wrapInlineLoop ind w segs i lines cur)).flatten =
        stripSpaces lines.flatten ++ stripSpaces cur ++
          stripSpaces ((segs.map textSegment.text).flatten) := by
  intro segs
  induction segs with
  | nil =>
    intro i lines cur
    simp only [wrapInlineLoop, wrapFlush, List.map_nil, List.flatten_nil]
    by_cases hc : cur = []
    · subst hc
      rw [if_neg (by simp)]
      simp [stripSpaces]
    · rw [if_pos hc]
      by_cases hl : lines = []
      · subst hl
        simp [stripSpaces_append, stripSpaces]
      · rw [if_neg hl]
        simp only [List.flatten_append, List.flatten_cons, List.flatten_nil,
          List.append_nil, stripSpaces_append, hind, List.nil_append]
        simp [stripSpaces]
  | cons seg segs ih =>
    intro i lines cur
    obtain ⟨lines', cur', heq, hsh⟩ :=
      wrapInlineLoop_cons_cases ind w seg segs i lines cur
    rw [heq, ih]
    rcases hsh with ⟨hl, hc⟩ | ⟨pre, hpre, hl, hc, hne⟩ | ⟨pre, hpre, hl, hc, hnil⟩
    · subst hl
      rcases hc with ⟨hc, hnil⟩ | hc | hc <;> subst hc <;> try subst hnil
      · simp [stripSpaces_append, stripSpaces]
      · simp [stripSpaces_append]
      · simp [stripSpaces_append, stripSpaces_space_cons]
    · subst hl; subst hc
      have hp : stripSpaces pre = [] := by
        rcases hpre with rfl | rfl
        · rfl
        · exact hind
      simp only [List.flatten_append, List.flatten_cons, List.flatten_nil,
        List.append_nil, stripSpaces_append, hp, List.nil_append,
        List.map_cons, List.append_assoc]
    · subst hl; subst hc; subst hnil
      have hp : stripSpaces pre = [] := by
        rcases hpre with rfl | rfl
        · rfl
        · exact hind
      simp only [List.flatten_append, List.flatten_cons, List.flatten_nil,
        List.append_nil, stripSpaces_append, hp, List.nil_append]
      simp [stripSpaces]

theorem joinSpace_strip :
    ∀ ls : List (List Char), stripSpaces (joinSpace ls) = stripSpaces ls.flatten := by
  intro ls
  induction ls with
  | nil => rfl
  | cons l ls ih =>
    cases ls with
    | nil => simp [joinSpace, stripSpaces]
    | cons m ms =>
      show stripSpaces (l ++ ' ' :: joinSpace (m :: ms)) = _
      rw [stripSpaces_append, stripSpaces_space_cons, ih]
      simp [stripSpaces_append]

end Parselt

namespace Parselt

/-- C1 counterexample: at width 80 the input `use `a` b` is packed into the
single line `use`a` b` — the code segment is appended with no preceding
space — so rejoining the output lines with single spaces and collapsing
whitespace does not recover the original token sequence. -/
theorem C1_counterexample :
    (0 : Int) < 80 ∧
      fields (joinSpace (wrapTextWithInlineCodeLines (cs "use `a` b") 80 0)) ≠
        fields (cs "use `a` b") := by
  constructor
  · decide
  · decide

/-- C1 (amended): for every line, width and indent, concatenating the output
lines of the inline-code-aware wrapper with single spaces reconstructs the
original text up to deletion of space characters: the non-space characters
agree in order.  (The unamended claim — the full token sequence is preserved —
fails because a code segment is appended to the current line with no
separating space.) -/
theorem C1_spacing_reconstruction (text : List Char) (width : Int) (indent : Nat) :
    stripSpaces (joinSpace (wrapTextWithInlineCodeLines text width indent)) =
      stripSpaces text := by
  unfold wrapTextWithInlineCodeLines
  split_ifs with h
  · simp [joinSpace]
  · rw [joinSpace_strip,
      wrapInline_strip (List.replicate indent ' ') width (stripSpaces_replicate indent)]
    simpa [splitTextPreservingCode] using splitGo_strip text [] false

end Parselt

namespace Parselt

/-- Every segment emitted by the splitter has nonempty text. -/
theorem splitGo_nonempty :
    ∀ (s cur : List Char) (inCode : Bool),
      ∀ seg ∈ splitGo cur inCode s, seg.text ≠ [] := by
  intro s
  induction s with
  | nil =>
    intro cur inCode seg hm
    rw [splitGo_nil] at hm
    by_cases hc : cur ≠ []
    · rw [if_pos hc] at hm
      simp at hm
      subst hm
      exact hc
    · rw [if_neg hc] at hm
      simp at hm
  | cons c rest ih =>
    intro cur inCode seg hm
    by_cases h1 : c = '`'
    · subst h1
      cases inCode with
      | true =>
        rw [splitGo_tick_true] at hm
        rcases List.mem_cons.mp hm with h | h
        · subst h; simp
        · exact ih [] false seg h
      | false =>
        rw [splitGo_tick_false] at hm
        rcases List.mem_append.mp hm with h | h
        · by_cases hc : cur ≠ []
          · rw [if_pos hc] at h
            simp at h
            subst h
            exact hc
          · rw [if_neg hc] at h
            simp at h
        · exact ih ['`'] true seg h
    · by_cases h2 : c = ' ' ∧ inCode = false
      · obtain ⟨rfl, rfl⟩ := h2
        rw [splitGo_space_false] at hm
        rcases List.mem_append.mp hm with h | h
        · by_cases hc : cur ≠ []
          · rw [if_pos hc] at h
            simp at h
            subst h
            exact hc
          · rw [if_neg hc] at h
            simp at h
        · exact ih [] false seg h
      · rw [splitGo_other cur rest h1 h2] at hm
        have := ih (cur ++ [c]) inCode seg hm
        exact this

theorem count_tick_cons (c : Char) (l : List Char) :
    List.count '`' (c :: l) = List.count '`' l + (if c = '`' then 1 else 0) := by
  rw [List.count_cons]
  simp [beq_iff_eq]

/-- Every segment emitted by the splitter carries an even number of
backticks, provided the running count satisfies the mode invariant: a code
segment is exactly one opening and one closing backtick around tick-free
text, and a prose segment is tick-free. -/
theorem splitGo_even :
    ∀ (s cur : List Char) (inCode : Bool),
      (cur.count '`' + s.count '`') % 2 = 0 →
      cur.count '`' % 2 = (if inCode then 1 else 0) →
      ∀ seg ∈ splitGo cur inCode s, seg.text.count '`' % 2 = 0 := by
  intro s
  induction s with
  | nil =>
    intro cur inCode htot hcur seg hm
    rw [splitGo_nil] at hm
    by_cases hc : cur ≠ []
    · rw [if_pos hc] at hm
      simp at hm
      subst hm
      show List.count '`' cur % 2 = 0
      simp only [List.count_nil] at htot
      omega
    · rw [if_neg hc] at hm
      simp at hm
  | cons c rest ih =>
    intro cur inCode htot hcur seg hm
    rw [count_tick_cons] at htot
    by_cases h1 : c = '`'
    · subst h1
      rw [if_pos rfl] at htot
      cases inCode with
      | true =>
        rw [if_pos rfl] at hcur
        rw [splitGo_tick_true] at hm
        rcases List.mem_cons.mp hm with h | h
        · subst h
          show List.count '`' (cur ++ ['`']) % 2 = 0
          rw [List.count_append, count_tick_cons, if_pos rfl]
          simp only [List.count_nil]
          omega
        · refine ih [] false ?_ ?_ seg h
          · simp only [List.count_nil]
            omega
          · simp
      | false =>
        rw [if_neg (by simp : ¬ false = true)] at hcur
        rw [splitGo_tick_false] at hm
        rcases List.mem_append.mp hm with h | h
        · by_cases hc : cur ≠ []
          · rw [if_pos hc] at h
            simp at h
            subst h
            exact hcur
          · rw [if_neg hc] at h
            simp at h
        · refine ih ['`'] true ?_ ?_ seg h
          · rw [count_tick_cons, if_pos rfl]
            simp only [List.count_nil]
            omega
          · rw [count_tick_cons, if_pos rfl]
            simp
    · by_cases h2 : c = ' ' ∧ inCode = false
      · obtain ⟨rfl, rfl⟩ := h2
        rw [if_neg (by simp : ¬ false = true)] at hcur
        rw [if_neg h1] at htot
        rw [splitGo_space_false] at hm
        rcases List.mem_append.mp hm with h | h
        · by_cases hc : cur ≠ []
          · rw [if_pos hc] at h
            simp at h
            subst h
            exact hcur
          · rw [if_neg hc] at h
            simp at h
        · refine ih [] false ?_ ?_ seg h
          · simp only [List.count_nil]
            omega
          · simp
      · rw [splitGo_other cur rest h1 h2] at hm
        rw [if_neg h1] at htot
        refine ih (cur ++ [c]) inCode ?_ ?_ seg hm
        · rw [List.count_append, count_tick_cons, if_neg h1]
          simp only [List.count_nil]
          omega
        · rw [List.count_append, count_tick_cons, if_neg h1]
          simp only [List.count_nil]
          simpa using hcur

end Parselt

namespace Parselt

/-- If all lines, the current line, and all remaining segment texts have
even backtick counts (and the indent has none), every line the packer
produces has an even backtick count. -/
theorem wrapInline_even (ind : List Char) (w : Int) (hind : ind.count '`' = 0) :
    ∀ (segs : List textSegment) (i : Nat) (lines : List (List Char)) (cur : List Char),
      (∀ l ∈ lines, l.count '`' % 2 = 0) →
      cur.count '`' % 2 = 0 →
      (∀ seg ∈ segs, seg.text.count '`' % 2 = 0) →
      ∀ l ∈ wrapFlush ind (wrapInlineLoop ind w segs i lines cur),
        l.count '`' % 2 = 0 := by
  intro segs
  induction segs with
  | nil =>
    intro i lines cur hlines hcur _ l hl
    simp only [wrapInlineLoop, wrapFlush] at hl
    by_cases hc : cur ≠ []
    · rw [if_pos hc] at hl
      rcases List.mem_append.mp hl with h | h
      · exact hlines l h
      · simp at h
        subst h
        rw [List.count_append]
        by_cases hle : lines = []
        · rw [if_pos hle]
          simpa using hcur
        · rw [if_neg hle, hind]
          simpa using hcur
    · rw [if_neg hc] at hl
      exact hlines l hl
  | cons seg segs ih =>
    intro i lines cur hlines hcur hsegs l hl
    obtain ⟨lines', cur', heq, hsh⟩ :=
      wrapInlineLoop_cons_cases ind w seg segs i lines cur
    rw [heq] at hl
    have hseg : seg.text.count '`' % 2 = 0 := hsegs seg (List.mem_cons_self seg segs)
    have hsegs' : ∀ s ∈ segs, s.text.count '`' % 2 = 0 := fun s hs =>
      hsegs s (List.mem_cons_of_mem seg hs)
    have hpre0 : ∀ pre : List Char, pre = [] ∨ pre = ind → pre.count '`' = 0 := by
      rintro pre (rfl | rfl)
      · rfl
      · exact hind
    rcases hsh with ⟨rfl, hc'⟩ | ⟨pre, hpre, rfl, rfl, _⟩ | ⟨pre, hpre, rfl, rfl, _⟩
    · refine ih (i + 1) lines' cur' hlines ?_ hsegs' l hl
      rcases hc' with ⟨rfl, rfl⟩ | rfl | rfl
      · simpa using hseg
      · rw [List.count_append]
        omega
      · rw [List.count_append, count_tick_cons]
        rw [if_neg (by decide : ¬ (' ' = '`'))]
        omega
    · refine ih (i + 1) (lines ++ [pre ++ cur]) seg.text ?_ hseg hsegs' l hl
      intro m hm
      rcases List.mem_append.mp hm with h | h
      · exact hlines m h
      · simp at h
        subst h
        rw [List.count_append, hpre0 pre hpre]
        simpa using hcur
    · refine ih (i + 1) (lines ++ [pre ++ seg.text]) [] ?_ (by simp) hsegs' l hl
      intro m hm
      rcases List.mem_append.mp hm with h | h
      · exact hlines m h
      · simp at h
        subst h
        rw [List.count_append, hpre0 pre hpre]
        simpa using hseg

/-- Lines already flushed survive to the packer's final output. -/
theorem wrapInline_lines_mono (ind : List Char) (w : Int) :
    ∀ (segs : List textSegment) (i : Nat) (lines : List (List Char)) (cur : List Char),
      ∀ l ∈ lines, l ∈ wrapFlush ind (wrapInlineLoop ind w segs i lines cur) := by
  intro segs
  induction segs with
  | nil =>
    intro i lines cur l hl
    simp only [wrapInlineLoop, wrapFlush]
    by_cases hc : cur ≠ []
    · rw [if_pos hc]
      exact List.mem_append.mpr (Or.inl hl)
    · rw [if_neg hc]
      exact hl
  | cons seg segs ih =>
    intro i lines cur l hl
    obtain ⟨lines', cur', heq, hsh⟩ :=
      wrapInlineLoop_cons_cases ind w seg segs i lines cur
    rw [heq]
    have hmem : l ∈ lines' := by
      rcases hsh with ⟨rfl, _⟩ | ⟨pre, _, rfl, _, _⟩ | ⟨pre, _, rfl, _, _⟩
      · exact hl
      · exact List.mem_append.mpr (Or.inl hl)
      · exact List.mem_append.mpr (Or.inl hl)
    exact ih (i + 1) lines' cur' l hmem

/-- The nonempty current line of the packer ends up inside one of the output
lines. -/
theorem wrapInline_cur_infix (ind : List Char) (w : Int) :
    ∀ (segs : List textSegment) (i : Nat) (lines : List (List Char)) (cur : List Char),
      cur ≠ [] →
      ∃ l ∈ wrapFlush ind (wrapInlineLoop ind w segs i lines cur),
        cur <:+: l := by
  intro segs
  induction segs with
  | nil =>
    intro i lines cur hc
    simp only [wrapInlineLoop, wrapFlush]
    rw [if_pos hc]
    exact ⟨(if lines = [] then [] else ind) ++ cur,
      List.mem_append.mpr (Or.inr (List.mem_singleton.mpr rfl)),
      (List.suffix_append _ cur).isInfix⟩
  | cons seg segs ih =>
    intro i lines cur hc
    obtain ⟨lines', cur', heq, hsh⟩ :=
      wrapInlineLoop_cons_cases ind w seg segs i lines cur
    rw [heq]
    rcases hsh with ⟨rfl, hc'⟩ | ⟨pre, hpre, rfl, rfl, _⟩ | ⟨pre, hpre, rfl, rfl, hnil⟩
    · have hcur' : cur <+: cur' ∧ cur' ≠ [] := by
        rcases hc' with ⟨rfl, rfl⟩ | rfl | rfl
        · exact absurd rfl hc
        · exact ⟨List.prefix_append cur seg.text, by simp [hc]⟩
        · exact ⟨List.prefix_append cur (' ' :: seg.text), by simp [hc]⟩
      obtain ⟨l, hl, hinf⟩ := ih (i + 1) lines' cur' hcur'.2
      exact ⟨l, hl, hcur'.1.isInfix.trans hinf⟩
    · refine ⟨pre ++ cur, ?_, (List.suffix_append pre cur).isInfix⟩
      exact wrapInline_lines_mono ind w segs (i + 1) (lines ++ [pre ++ cur])
        seg.text (pre ++ cur) (List.mem_append.mpr (Or.inr (List.mem_singleton.mpr rfl)))
    · exact absurd hnil hc

/-- Every remaining segment's text appears contiguously inside one of the
packer's output lines. -/
theorem wrapInline_seg_infix (ind : List Char) (w : Int) :
    ∀ (segs : List textSegment) (i : Nat) (lines : List (List Char)) (cur : List Char),
      (∀ seg ∈ segs, seg.text ≠ []) →
      ∀ seg ∈ segs,
        ∃ l ∈ wrapFlush ind (wrapInlineLoop ind w segs i lines cur),
          seg.text <:+: l := by
  intro segs
  induction segs with
  | nil =>
    intro i lines cur _ seg hm
    simp at hm
  | cons seg0 segs ih =>
    intro i lines cur hne seg hm
    obtain ⟨lines', cur', heq, hsh⟩ :=
      wrapInlineLoop_cons_cases ind w seg0 segs i lines cur
    rw [heq]
    rcases List.mem_cons.mp hm with rfl | hm'
    · -- the head segment: its text is a suffix of the new current line or
      -- sits inside a freshly flushed line
      rcases hsh with ⟨rfl, hc'⟩ | ⟨pre, hpre, rfl, rfl, _⟩ | ⟨pre, hpre, rfl, rfl, _⟩
      · have hsuf : seg.text <:+ cur' ∧ cur' ≠ [] := by
          rcases hc' with ⟨rfl, _⟩ | rfl | rfl
          · exact ⟨List.suffix_rfl, hne seg (List.mem_cons_self seg segs)⟩
          · exact ⟨List.suffix_append cur seg.text,
              by simp [hne seg (List.mem_cons_self seg segs)]⟩
          · exact ⟨⟨cur ++ [' '], by simp⟩,
              by simp [hne seg (List.mem_cons_self seg segs)]⟩
        obtain ⟨l, hl, hinf⟩ := wrapInline_cur_infix ind w segs (i + 1) lines' cur' hsuf.2
        exact ⟨l, hl, hsuf.1.isInfix.trans hinf⟩
      · obtain ⟨l, hl, hinf⟩ := wrapInline_cur_infix ind w segs (i + 1)
          (lines ++ [pre ++ cur]) seg.text (hne seg (List.mem_cons_self seg segs))
        exact ⟨l, hl, hinf⟩
      · refine ⟨pre ++ seg.text, ?_, (List.suffix_append pre seg.text).isInfix⟩
        exact wrapInline_lines_mono ind w segs (i + 1) (lines ++ [pre ++ seg.text])
          [] (pre ++ seg.text) (List.mem_append.mpr (Or.inr (List.mem_singleton.mpr rfl)))
    · exact ih (i + 1) lines' cur'
        (fun s hs => hne s (List.mem_cons_of_mem seg0 hs)) seg hm'

end Parselt

namespace Parselt

theorem count_tick_replicate (n : Nat) :
    (List.replicate n ' ').count '`' = 0 := by
  induction n with
  | zero => rfl
  | succ m ih => simp [List.replicate_succ, count_tick_cons, ih]

/-- C6: for every prose line with balanced backticks and every positive
width, every output line of the inline-code-aware wrapper carries a
balanced (even) number of backticks — no line holds a truncated backtick
pair — and every segment the splitter produced (in particular every
backtick-delimited code span, which the splitter keeps whole) appears
contiguously inside a single output line, fully delimited. -/
theorem C6_code_span_atomicity (text : List Char) (width : Int) (indent : Nat)
    (hw : 0 < width) (hbal : text.count '`' % 2 = 0) :
    (∀ l ∈ wrapTextWithInlineCodeLines text width indent, l.count '`' % 2 = 0) ∧
    (∀ seg ∈ splitTextPreservingCode text,
      ∃ l ∈ wrapTextWithInlineCodeLines text width indent, seg.text <:+: l) := by
  have hnotle : ¬ width ≤ 0 := not_le.mpr hw
  unfold wrapTextWithInlineCodeLines
  rw [if_neg hnotle]
  constructor
  · exact wrapInline_even (List.replicate indent ' ') width (count_tick_replicate indent)
      (splitTextPreservingCode text) 0 [] [] (by simp) (by simp)
      (splitGo_even text [] false (by simpa using hbal) (by simp))
  · exact wrapInline_seg_infix (List.replicate indent ' ') width
      (splitTextPreservingCode text) 0 [] []
      (splitGo_nonempty text [] false)

theorem C6_code_span_atomicity_witness :
    (0 : Int) < 5 ∧ (cs "a `bb` c").count '`' % 2 = 0 ∧
      ((∀ l ∈ wrapTextWithInlineCodeLines (cs "a `bb` c") 5 0, l.count '`' % 2 = 0) ∧
       (∀ seg ∈ splitTextPreservingCode (cs "a `bb` c"),
         ∃ l ∈ wrapTextWithInlineCodeLines (cs "a `bb` c") 5 0, seg.text <:+: l)) :=
  ⟨by decide, by decide, C6_code_span_atomicity (cs "a `bb` c") 5 0 (by decide) (by decide)⟩

end Parselt

namespace Parselt

theorem dropWhile_ws_replicate (k : Nat) (l : List Char) :
    (List.replicate k ' ' ++ l).dropWhile isWS = l.dropWhile isWS := by
  induction k with
  | zero => rfl
  | succ m ih =>
    rw [List.replicate_succ]
    show List.dropWhile isWS (List.replicate m ' ' ++ l) = _
    exact ih

theorem trimSpace_replicate_space (k : Nat) (l : List Char) :
    trimSpace (List.replicate k ' ' ++ l) = trimSpace l := by
  unfold trimSpace
  rw [dropWhile_ws_replicate]

theorem trimLeftSpaceTab_replicate (k : Nat) (l : List Char) :
    trimLeftSpaceTab (List.replicate k ' ' ++ l) = trimLeftSpaceTab l := by
  induction k with
  | zero => rfl
  | succ m ih =>
    rw [List.replicate_succ]
    show trimLeftSpaceTab (List.replicate m ' ' ++ l) = _
    exact ih

theorem splitLines_single {s : List Char} (h : '\n' ∉ s) :
    splitLines s = [s] := by
  induction s with
  | nil => rfl
  | cons c rest ih =>
    have hc : c ≠ '\n' := fun hh => h (hh ▸ List.mem_cons_self c rest)
    have hr : '\n' ∉ rest := fun hh => h (List.mem_cons_of_mem _ hh)
    show (if c = '\n' then [] :: splitLines rest
      else match splitLines rest with
           | [] => [[c]]
           | l :: ls => (c :: l) :: ls) = _
    rw [if_neg hc, ih hr]

theorem UnescapeHTML_id_of_no_amp {s : List Char} (h : '&' ∉ s) :
    UnescapeHTML s = s := by
  show replaceAll (replaceAll (replaceAll (replaceAll (replaceAll
    s ('&' :: cs "lt;") (cs "<")) ('&' :: cs "gt;") (cs ">"))
    ('&' :: cs "amp;") (cs "&")) ('&' :: cs "quot;") (cs "\""))
    ('&' :: cs "#39;") (cs "'") = s
  rw [replaceAll_id_of_no_amp _ _ h, replaceAll_id_of_no_amp _ _ h,
      replaceAll_id_of_no_amp _ _ h, replaceAll_id_of_no_amp _ _ h,
      replaceAll_id_of_no_amp _ _ h]

end Parselt

namespace Parselt

/-- The list-item branch of one markdown-projector step on a fresh state:
a line of `k` leading spaces followed by trimmed list-item markup `t` lands
in the `<li>` branch and emits one output line built from the
leading-space-derived indent and the marker/content computation. -/
theorem processMDLine_li_generic (k : Nat) (t content out : List Char)
    (ht : trimSpace t = t)
    (h0 : t ≠ [])
    (h1 : containsSub t (cs "<pre><code") = false)
    (h2 : containsSub t (cs "</code></pre>") = false)
    (h3 : containsSub t (cs "<h1") = false)
    (h4 : containsSub t (cs "<h2") = false)
    (h5 : containsSub t (cs "<h3") = false)
    (h6 : containsSub t (cs "<h4") = false)
    (h7 : (containsSub t (cs "<ol>") || containsSub t (cs "</ol>")) = false)
    (h8 : (containsSub t (cs "<ul>") || containsSub t (cs "</ul>")) = false)
    (h9 : containsSub t (cs "<li>") = true)
    (h10 : trimLeftSpaceTab t = t)
    (hc : trimSpace (removeTags (processInlineFormattingMD
      (replaceAll (replaceAll t (cs "<li>") []) (cs "</li>") []))) = content)
    (hcne : content ≠ [])
    (hout : (match findNum content with
      | some n => (n ++ cs ". ") ++ trimSpace (numRemoveAll content)
      | none => cs "- " ++ content) = out) :
    processMDLine initMDState (List.replicate k ' ' ++ t) =
      { initMDState with result := [specListIndent k ++ out] } := by
  have hline : trimSpace (List.replicate k ' ' ++ t) = t := by
    rw [trimSpace_replicate_space, ht]
  unfold processMDLine
  dsimp only
  rw [hline]
  rw [if_neg h0]
  rw [if_neg (by simp [h1])]
  rw [if_neg (by simp [h2])]
  rw [if_neg (by decide : ¬ initMDState.inCodeBlock = true)]
  rw [if_neg (by simp [h3])]
  rw [if_neg (by simp [h4])]
  rw [if_neg (by simp [h5])]
  rw [if_neg (by simp [h6])]
  rw [if_neg (by simp_all)]
  rw [if_neg (by simp_all)]
  rw [if_pos h9]
  rw [hc]
  rw [if_pos hcne]
  rw [trimLeftSpaceTab_replicate, h10]
  rw [show (List.replicate k ' ' ++ t).length - t.length = k by simp]
  cases hfn : findNum content with
  | some n =>
    rw [hfn] at hout
    show { initMDState with result := initMDState.result ++
      [(if k ≥ 4 then cs "    " else if k ≥ 2 then cs "  " else []) ++
        (n ++ cs ". ") ++ trimSpace (numRemoveAll content)] } = _
    rw [← hout]
    simp [initMDState, specListIndent, ge_iff_le]
  | none =>
    rw [hfn] at hout
    show { initMDState with result := initMDState.result ++
      [(if k ≥ 4 then cs "    " else if k ≥ 2 then cs "  " else []) ++
        cs "- " ++ content] } = _
    rw [← hout]
    simp [initMDState, specListIndent, ge_iff_le]

end Parselt

namespace Parselt

theorem no_amp_replicate_append {k : Nat} {t : List Char}
    (ht : '&' ∉ t) : '&' ∉ List.replicate k ' ' ++ t := by
  intro h
  rcases List.mem_append.mp h with h | h
  · exact absurd (List.eq_of_mem_replicate h) (by decide)
  · exact ht h

theorem no_nl_replicate_append {k : Nat} {t : List Char}
    (ht : '\n' ∉ t) : '\n' ∉ List.replicate k ' ' ++ t := by
  intro h
  rcases List.mem_append.mp h with h | h
  · exact absurd (List.eq_of_mem_replicate h) (by decide)
  · exact ht h

/-- C7 counterexample: the numeral-marker regex of the markdown projector is
unanchored, so `<li>ships 2.0 today</li>` — whose digit-period pattern is
interior, not leading — is emitted as a numbered item `2. ships 0 today`
(the matched `2.` is also deleted from the content), not as the bullet item
`- ships 2.0 today` the leading-pattern reading predicts. -/
theorem C7_counterexample :
    htmlToMarkdownLines (cs "<li>ships 2.0 today</li>") = [cs "2. ships 0 today"] ∧
      htmlToMarkdownLines (cs "<li>ships 2.0 today</li>") ≠ [cs "- ships 2.0 today"] := by
  constructor
  · decide
  · decide

/-- C7 (amended): for every list-item line, the markdown projector computes
indentation from the original line's leading-whitespace count (≥4 spaces →
4-space indent, ≥2 spaces → 2-space indent, else none) with default bullet
`"- "`, and substitutes a numeral-period marker for the bullet exactly when
the item's content contains a digit-run-period pattern anywhere (the first
match, whose first occurrence is deleted from the content) — not only a
leading one.  In particular `<li>Item one</li>` at any indentation k emits
the spec's bullet line, while interior matches such as `ships 2.0 today`
are converted to numbered items. -/
theorem C7_list_item_indent (k : Nat) :
    htmlToMarkdownLines (List.replicate k ' ' ++ cs "<li>Item one</li>") =
      [specListIndent k ++ cs "- Item one"] ∧
    htmlToMarkdownLines (List.replicate k ' ' ++ cs "<li>ships 2.0 today</li>") =
      [specListIndent k ++ cs "2. ships 0 today"] := by
  constructor
  · unfold htmlToMarkdownLines htmlToMarkdownState
    rw [UnescapeHTML_id_of_no_amp (no_amp_replicate_append (by decide)),
      splitLines_single (no_nl_replicate_append (by decide))]
    show cleanResult (processMDLine initMDState
      (List.replicate k ' ' ++ cs "<li>Item one</li>")).result = _
    rw [processMDLine_li_generic k (cs "<li>Item one</li>") (cs "Item one")
      (cs "- Item one") (by decide) (by decide) (by decide) (by decide)
      (by decide) (by decide) (by decide) (by decide) (by decide) (by decide)
      (by decide) (by decide) (by decide) (by decide) (by decide)]
    rfl
  · unfold htmlToMarkdownLines htmlToMarkdownState
    rw [UnescapeHTML_id_of_no_amp (no_amp_replicate_append (by decide)),
      splitLines_single (no_nl_replicate_append (by decide))]
    show cleanResult (processMDLine initMDState
      (List.replicate k ' ' ++ cs "<li>ships 2.0 today</li>")).result = _
    rw [processMDLine_li_generic k (cs "<li>ships 2.0 today</li>")
      (cs "ships 2.0 today") (cs "2. ships 0 today") (by decide) (by decide)
      (by decide) (by decide) (by decide) (by decide) (by decide) (by decide)
      (by decide) (by decide) (by decide) (by decide) (by decide) (by decide)
      (by decide)]
    rfl

end Parselt

namespace Parselt

/-- C9: each conversion is modelled as a total Lean function of the input
string alone (the Go function reads no other state and performs no I/O), so
two invocations on equal inputs return equal outputs. -/
theorem C9_pure_function (s t : List Char) (h : s = t) :
    htmlToMarkdown s = htmlToMarkdown t :=
  congrArg htmlToMarkdown h

theorem C9_pure_function_witness :
    cs "<p>hi</p>" = cs "<p>hi</p>" ∧
      htmlToMarkdown (cs "<p>hi</p>") = htmlToMarkdown (cs "<p>hi</p>") :=
  ⟨rfl, C9_pure_function (cs "<p>hi</p>") (cs "<p>hi</p>") rfl⟩

/-- C10 counterexample: on `<h2></h2>` the markdown projector does not drop
the empty header: the `<h2[^>]*>(.*?)</h2>` match fires with empty capture
and the branch appends `"## "` and a blank separator unconditionally. -/
theorem C10_counterexample :
    htmlToMarkdownLines (cs "<h2></h2>") = [cs "## ", []] ∧
      htmlToMarkdownLines (cs "<h2></h2>") ≠ [] := by
  constructor
  · decide
  · decide

end Parselt

namespace Parselt

/-- C10 (amended): for a line whose trimmed form carries a level-2 header
tag whose extracted inner content is empty after trimming, the terminal
conversion's step emits no output line at all — the state is returned
unchanged — while the markdown conversion's step appends the bare heading
marker `"## "` and a blank separator; the silent drop holds only on the
terminal surface.  The closed conjuncts record the same split for empty
`h1`/`h3`/`h4` headers on whole-conversion runs. -/
theorem C10_empty_headers (aw : Int) (stT : TermState) (stM : MDState)
    (orig c : List Char)
    (h0 : trimSpace orig ≠ [])
    (h1 : containsSub (trimSpace orig) (cs "<pre><code") = false)
    (h2 : containsSub (trimSpace orig) (cs "</code></pre>") = false)
    (hT : stT.inCodeBlock = false)
    (hM : stM.inCodeBlock = false)
    (hh1 : matchesOpenTag (cs "<h1") (trimSpace orig) = false)
    (hh2 : matchesOpenTag (cs "<h2") (trimSpace orig) = true)
    (hc1 : containsSub (trimSpace orig) (cs "<h1") = false)
    (hc2 : containsSub (trimSpace orig) (cs "<h2") = true)
    (hfind : findTagContent (cs "<h2") (cs "</h2>") (trimSpace orig) = some c)
    (hct : trimSpace c = []) :
    (processTermLine aw stT orig = some stT ∧
     processMDLine stM orig =
       { stM with result := stM.result ++ [cs "## ", []] }) ∧
    (htmlToTerminal 100 (cs "<h1></h1>") = some [] ∧
     htmlToTerminal 100 (cs "<h3></h3>") = some [] ∧
     htmlToTerminal 100 (cs "<h4></h4>") = some [] ∧
     htmlToMarkdownLines (cs "<h1></h1>") = [cs "# ", []] ∧
     htmlToMarkdownLines (cs "<h3></h3>") = [cs "### ", []] ∧
     htmlToMarkdownLines (cs "<h4></h4>") = [cs "#### ", []]) := by
  have hec : ExtractHeaderContent (trimSpace orig) 2 = [] := by
    show headerContentAux (cs "<h2") (cs "</h2>") (trimSpace orig) = []
    unfold headerContentAux
    rw [hfind]
    exact hct
  refine ⟨⟨?_, ?_⟩, by decide, by decide, by decide, by decide, by decide, by decide⟩
  · unfold processTermLine
    dsimp only
    rw [if_neg h0]
    rw [if_neg (by simp [h1])]
    rw [if_neg (by simp [h2])]
    rw [if_neg (by simp [hT])]
    unfold processTermRest
    dsimp only
    rw [if_neg (by simp [hh1])]
    rw [if_pos hh2]
    rw [hec]
    rw [if_neg (by simp)]
  · unfold processMDLine
    dsimp only
    rw [if_neg h0]
    rw [if_neg (by simp [h1])]
    rw [if_neg (by simp [h2])]
    rw [if_neg (by simp [hM])]
    rw [if_neg (by simp [hc1])]
    rw [if_pos (by simp [hc2])]
    rw [hfind]
    dsimp only
    rw [hct, List.append_nil]

end Parselt

namespace Parselt

theorem C10_empty_headers_witness :
    (trimSpace (cs "<h2></h2>") ≠ [] ∧
     containsSub (trimSpace (cs "<h2></h2>")) (cs "<pre><code") = false ∧
     containsSub (trimSpace (cs "<h2></h2>")) (cs "</code></pre>") = false ∧
     initTermState.inCodeBlock = false ∧
     initMDState.inCodeBlock = false ∧
     matchesOpenTag (cs "<h1") (trimSpace (cs "<h2></h2>")) = false ∧
     matchesOpenTag (cs "<h2") (trimSpace (cs "<h2></h2>")) = true ∧
     containsSub (trimSpace (cs "<h2></h2>")) (cs "<h1") = false ∧
     containsSub (trimSpace (cs "<h2></h2>")) (cs "<h2") = true ∧
     findTagContent (cs "<h2") (cs "</h2>") (trimSpace (cs "<h2></h2>")) =
       some [] ∧
     trimSpace ([] : List Char) = []) ∧
    ((processTermLine 92 initTermState (cs "<h2></h2>") = some initTermState ∧
      processMDLine initMDState (cs "<h2></h2>") =
        { initMDState with result := initMDState.result ++ [cs "## ", []] }) ∧
     (htmlToTerminal 100 (cs "<h1></h1>") = some [] ∧
      htmlToTerminal 100 (cs "<h3></h3>") = some [] ∧
      htmlToTerminal 100 (cs "<h4></h4>") = some [] ∧
      htmlToMarkdownLines (cs "<h1></h1>") = [cs "# ", []] ∧
      htmlToMarkdownLines (cs "<h3></h3>") = [cs "### ", []] ∧
      htmlToMarkdownLines (cs "<h4></h4>") = [cs "#### ", []])) :=
  ⟨⟨by decide, by decide, by decide, by decide, by decide, by decide, by decide,
    by decide, by decide, by decide, by decide⟩,
   C10_empty_headers 92 initTermState initMDState (cs "<h2></h2>") []
     (by decide) (by decide) (by decide) (by decide) (by decide) (by decide)
     (by decide) (by decide) (by decide) (by decide) (by decide)⟩

end Parselt
